import Mathlib

/-!
Verification development for the SmartScan document scanner and classifier.

The definitions below are shallow embeddings of the JavaScript sources:
  * `scanner.js` (document detection, corner ordering, perspective transform),
  * `classifier.js` (keyword classification, ML refinement, best-date selection),
  * `ocrService.js` (structured-data extraction: dates and amounts).

Numbers are modelled as exact rationals `ℚ` (the idealised real-number
semantics of the JavaScript floating-point computations).  The arithmetic
on `ℚ` is expressed through the kernel-computable wrappers `qadd`, `qsub`,
`qmul`, `qdiv`, `qmin`, `qmax` below; each is proved equal to the
corresponding standard operation, so theorems can be read as if the
definitions used `+`, `-`, `*`, `/`, `min`, `max` directly.

External OpenCV primitives (contour extraction, `minAreaRect`) are modelled
as abstract inputs carrying exactly the data the scanner reads from them.
-/

namespace SmartScan

/-- Kernel-computable addition on `ℚ`: `a + b` as a quotient of integers. -/
def qadd (a b : ℚ) : ℚ := Rat.divInt (a.num * b.den + b.num * a.den) (a.den * b.den)

/-- Kernel-computable subtraction on `ℚ`. -/
def qsub (a b : ℚ) : ℚ := Rat.divInt (a.num * b.den - b.num * a.den) (a.den * b.den)

/-- Kernel-computable multiplication on `ℚ`. -/
def qmul (a b : ℚ) : ℚ := Rat.divInt (a.num * b.num) (a.den * b.den)

/-- Kernel-computable division on `ℚ` (division by zero yields `0`). -/
def qdiv (a b : ℚ) : ℚ := Rat.divInt (a.num * b.den) (a.den * b.num)

/-- Kernel-computable `Math.min` on `ℚ`. -/
def qmin (a b : ℚ) : ℚ := if a ≤ b then a else b

/-- Kernel-computable `Math.max` on `ℚ`. -/
def qmax (a b : ℚ) : ℚ := if a ≤ b then b else a

theorem qadd_eq (a b : ℚ) : qadd a b = a + b := by
  rw [qadd, Rat.divInt_eq_div]
  push_cast
  conv_rhs => rw [← Rat.num_div_den a, ← Rat.num_div_den b]
  have ha : ((a.den : ℚ)) ≠ 0 := by exact_mod_cast a.den_nz
  have hb : ((b.den : ℚ)) ≠ 0 := by exact_mod_cast b.den_nz
  field_simp

theorem qsub_eq (a b : ℚ) : qsub a b = a - b := by
  rw [qsub, Rat.divInt_eq_div]
  push_cast
  conv_rhs => rw [← Rat.num_div_den a, ← Rat.num_div_den b]
  have ha : ((a.den : ℚ)) ≠ 0 := by exact_mod_cast a.den_nz
  have hb : ((b.den : ℚ)) ≠ 0 := by exact_mod_cast b.den_nz
  field_simp
  ring

theorem qmul_eq (a b : ℚ) : qmul a b = a * b := by
  rw [qmul, Rat.divInt_eq_div]
  push_cast
  conv_rhs => rw [← Rat.num_div_den a, ← Rat.num_div_den b]
  have ha : ((a.den : ℚ)) ≠ 0 := by exact_mod_cast a.den_nz
  have hb : ((b.den : ℚ)) ≠ 0 := by exact_mod_cast b.den_nz
  field_simp

theorem qdiv_eq (a b : ℚ) : qdiv a b = a / b := by
  rcases eq_or_ne b 0 with rfl | hb0
  · simp [qdiv]
  · rw [qdiv, Rat.divInt_eq_div]
    push_cast
    conv_rhs => rw [← Rat.num_div_den a, ← Rat.num_div_den b]
    have ha : ((a.den : ℚ)) ≠ 0 := by exact_mod_cast a.den_nz
    have hb : ((b.den : ℚ)) ≠ 0 := by exact_mod_cast b.den_nz
    have hbn : ((b.num : ℚ)) ≠ 0 := by exact_mod_cast Rat.num_ne_zero.mpr hb0
    field_simp

theorem qmin_eq (a b : ℚ) : qmin a b = min a b := (min_def a b).symm

theorem qmax_eq (a b : ℚ) : qmax a b = max a b := (max_def a b).symm

/-- All six bridge equations, for rewriting an embedded definition into
standard `ℚ` arithmetic in one `simp only` step. -/
theorem qops :
    qadd = (· + · : ℚ → ℚ → ℚ) ∧ qsub = (· - · : ℚ → ℚ → ℚ) ∧
    qmul = (· * · : ℚ → ℚ → ℚ) ∧ qdiv = (· / · : ℚ → ℚ → ℚ) ∧
    qmin = (min : ℚ → ℚ → ℚ) ∧ qmax = (max : ℚ → ℚ → ℚ) :=
  ⟨funext fun a => funext (qadd_eq a), funext fun a => funext (qsub_eq a),
   funext fun a => funext (qmul_eq a), funext fun a => funext (qdiv_eq a),
   funext fun a => funext (qmin_eq a), funext fun a => funext (qmax_eq a)⟩

/-! ## Geometry: points and corner ordering (scanner.js) -/

/-- A 2-D point `{x, y}` in image coordinates (y grows downwards). -/
structure Pt where
  x : ℚ
  y : ℚ
deriving DecidableEq

/-- Cross product of two vectors, `u.x * v.y - u.y * v.x`. -/
def cross (u v : Pt) : ℚ := qsub (qmul u.x v.y) (qmul u.y v.x)

/-- Angle class of a vector according to the value of `Math.atan2(u.y, u.x)`:
class 0 for angles in `(-π, 0)` (i.e. `u.y < 0`), class 1 for angle `0`
(`u.y = 0 ∧ 0 ≤ u.x`, including the zero vector, for which `atan2 0 0 = 0`),
class 2 for angles in `(0, π)` (`0 < u.y`), class 3 for angle `π`
(`u.y = 0 ∧ u.x < 0`).  Classes are increasing in the angle. -/
def angClass (u : Pt) : ℕ :=
  if u.y < 0 then 0
  else if u.y = 0 ∧ 0 ≤ u.x then 1
  else if 0 < u.y then 2
  else 3

/-- Exact comparator deciding `Math.atan2 (p.y - c.y) (p.x - c.x) ≤
Math.atan2 (q.y - c.y) (q.x - c.x)`: first compare the angle class; within
an open half-plane (class 0 or 2) the angular order of two vectors is given
by the sign of their cross product; vectors of class 1 (resp. 3) all have
the same angle `0` (resp. `π`). -/
def angleLe (c p q : Pt) : Bool :=
  let u : Pt := ⟨qsub p.x c.x, qsub p.y c.y⟩
  let v : Pt := ⟨qsub q.x c.x, qsub q.y c.y⟩
  if angClass u ≠ angClass v then decide (angClass u < angClass v)
  else if angClass u = 0 ∨ angClass u = 2 then decide (0 ≤ cross u v)
  else true

/-- Insert `a` into a sorted list, before the first element not smaller
than it.  Together with `sortByAngle` this is a stable ascending sort,
matching the (stable, ES2019) semantics of
`withAngles.sort((a, b) => a.angle - b.angle)`. -/
def insertSorted (le : Pt → Pt → Bool) (a : Pt) : List Pt → List Pt
  | [] => [a]
  | b :: t => if le a b then a :: b :: t else b :: insertSorted le a t

/-- Stable ascending sort by the comparator `le`. -/
def sortByAngle (le : Pt → Pt → Bool) (l : List Pt) : List Pt :=
  l.foldr (insertSorted le) []

/-- Helper for `minSumIdx`: scan with current minimum `m` attained first at
index `bi`; the strict `<` mirrors the JS loop `if (sum < minSum)`. -/
def minSumIdxAux : List Pt → ℕ → ℚ → ℕ → ℕ
  | [], _, _, bi => bi
  | p :: t, i, m, bi =>
      if qadd p.x p.y < m then minSumIdxAux t (i + 1) (qadd p.x p.y) i
      else minSumIdxAux t (i + 1) m bi

/-- Index of the first point with minimal `x + y` (the JS loop starts with
`minSum = Infinity`, so the head always becomes the first candidate). -/
def minSumIdx : List Pt → ℕ
  | [] => 0
  | p :: t => minSumIdxAux t 1 (qadd p.x p.y) 0

/-- Rotation `l[k], l[k+1], …, l[0], …, l[k-1]` used to make the minimal
`x + y` point first (`(topLeftIndex + i) % 4` indexing in the source). -/
def rotateL (l : List Pt) (k : ℕ) : List Pt := l.drop k ++ l.take k

/-- Embedding of `DocumentScanner.orderCorners` (scanner.js): guard on
length 4, centroid, stable sort by `atan2` angle around the centroid,
rotate so the minimal `x + y` point is first, then return
`[ordered[0], ordered[3], ordered[2], ordered[1]]`. -/
def orderCorners (corners : List Pt) : List Pt :=
  if corners.length ≠ 4 then corners
  else
    let cx := qdiv (corners.foldl (fun s p => qadd s p.x) 0) 4
    let cy := qdiv (corners.foldl (fun s p => qadd s p.y) 0) 4
    let sorted := sortByAngle (angleLe ⟨cx, cy⟩) corners
    let rot := rotateL sorted (minSumIdx sorted)
    match rot with
    | [a, b, c, d] => [a, d, c, b]
    | l => l

example :
    orderCorners [⟨0, 0⟩, ⟨2, 0⟩, ⟨2, 2⟩, ⟨0, 2⟩] =
      [⟨0, 0⟩, ⟨0, 2⟩, ⟨2, 2⟩, ⟨2, 0⟩] := by decide

/-! ## Contour evaluation and document detection (scanner.js)

A contour produced by `cv.findContours` is modelled abstractly by the three
quantities the scanner reads from it: its area (`cv.contourArea`), the
vertex list of its polygonal approximation (`cv.approxPolyDP` with epsilon
2% of the arc length), and the four vertices of its minimum-area bounding
rectangle (`cv.minAreaRect` / `cv.RotatedRect.points`, which always yields
exactly four vertices). -/

structure Contour where
  area : ℚ
  approx : List Pt
  rect0 : Pt
  rect1 : Pt
  rect2 : Pt
  rect3 : Pt
deriving DecidableEq

/-- Embedding of `extractCorners`: read the 4 approximated vertices and
order them. -/
def extractCorners (c : Contour) : List Pt := orderCorners c.approx

/-- Embedding of `fitQuadrilateral`: order the 4 `minAreaRect` vertices. -/
def fitQuadrilateral (c : Contour) : List Pt :=
  orderCorners [c.rect0, c.rect1, c.rect2, c.rect3]

/-- Squared distance between two points; the source computes
`Math.sqrt` of this (`distance`), and every use below (comparisons of
distances, and rounding of a maximal distance) is expressed on squares,
which is equivalent since `Real.sqrt` is monotone. -/
def dist2 (p q : Pt) : ℚ :=
  qadd (qmul (qsub q.x p.x) (qsub q.x p.x)) (qmul (qsub q.y p.y) (qsub q.y p.y))

/-- Square of `width = max(distance(corners[0], corners[1]),
distance(corners[3], corners[2]))` (shared by `calculateAspectRatio` and
`perspectiveTransform`). -/
def widthSq (c0 c1 c2 c3 : Pt) : ℚ := qmax (dist2 c0 c1) (dist2 c3 c2)

/-- Square of `height = max(distance(corners[0], corners[3]),
distance(corners[1], corners[2]))`. -/
def heightSq (c0 c1 c2 c3 : Pt) : ℚ := qmax (dist2 c0 c3) (dist2 c1 c2)

/-- Embedding of the aspect-ratio filter of `findBestQuadrilateral`:
`aspectRatio = max(width, height) / min(width, height)` is accepted iff
`0.4 ≤ aspectRatio ≤ 2.5`, i.e. (on squares) `4/25 ≤ mx/mn ≤ 25/4`.
Degenerate cases follow the JS float semantics: if `min = 0 < max` the
ratio is `Infinity` and is rejected; if `min = max = 0` the ratio is `NaN`,
both comparisons `NaN < 0.4` and `NaN > 2.5` are false, and the corner set
is (perhaps surprisingly) accepted. -/
def aspectAccept (corners : List Pt) : Bool :=
  match corners with
  | [c0, c1, c2, c3] =>
      let mx := qmax (widthSq c0 c1 c2 c3) (heightSq c0 c1 c2 c3)
      let mn := qmin (widthSq c0 c1 c2 c3) (heightSq c0 c1 c2 c3)
      if mn = 0 then decide (mx = 0)
      else decide (Rat.divInt 4 25 ≤ qdiv mx mn) && decide (qdiv mx mn ≤ Rat.divInt 25 4)
  | _ => false

/-- The confidence assigned to a surviving candidate:
`Math.min(areaPercent * 2.5, 1)`. -/
def confidenceFor (areaPercent : ℚ) : ℚ := qmin (qmul areaPercent (Rat.divInt 5 2)) 1

/-- The corner candidate the loop derives from a contour: a 4-vertex
approximation is used directly (`extractCorners`), 4–8 vertices fall back
to the minimum-area rectangle (`fitQuadrilateral`), anything else yields
no candidate. -/
def candCorners (c : Contour) : Option (List Pt) :=
  let n := c.approx.length
  if n = 4 then some (extractCorners c)
  else if 4 ≤ n ∧ n ≤ 8 then some (fitQuadrilateral c)
  else none

/-- The best candidate so far: ordered corners, confidence, area percent. -/
structure BestQuad where
  corners : List Pt
  confidence : ℚ
  area : ℚ
deriving DecidableEq

/-- One iteration of the `findBestQuadrilateral` loop: skip contours whose
area fraction is below 10% or above 98%; skip contours without a corner
candidate; skip candidates failing the aspect filter; otherwise keep the
candidate if its confidence strictly exceeds the current best. -/
def considerContour (imageArea : ℚ) (best : Option BestQuad) (c : Contour) :
    Option BestQuad :=
  let areaPercent := qdiv c.area imageArea
  if areaPercent < Rat.divInt 1 10 ∨ Rat.divInt 98 100 < areaPercent then best
  else
    match candCorners c with
    | none => best
    | some corners =>
        if aspectAccept corners then
          let conf := confidenceFor areaPercent
          match best with
          | none => some ⟨corners, conf, areaPercent⟩
          | some b => if b.confidence < conf then some ⟨corners, conf, areaPercent⟩ else best
        else best

/-- Embedding of `findBestQuadrilateral` (scanner.js). -/
def findBestQuadrilateral (contours : List Contour) (imageArea : ℚ) :
    Option BestQuad :=
  contours.foldl (considerContour imageArea) none

/-- A single strategy's result, `{corners, confidence}`. -/
structure Detection where
  corners : Option (List Pt)
  confidence : ℚ
deriving DecidableEq

/-- Shared tail of `detectWithCanny` / `detectWithAdaptiveThreshold`: the
strategy's image pipeline is an OpenCV black box modelled by the contour
list it produces; the result is the best quadrilateral among them. -/
def strategyDetect (contours : List Contour) (imageArea : ℚ) : Detection :=
  match findBestQuadrilateral contours imageArea with
  | some b => ⟨some b.corners, b.confidence⟩
  | none => ⟨none, 0⟩

/-- Embedding of `detectBrightRegion`: as `strategyDetect`, but the
confidence is multiplied by `0.9` (least trusted strategy). -/
def detectBrightRegion (contours : List Contour) (imageArea : ℚ) : Detection :=
  match findBestQuadrilateral contours imageArea with
  | some b => ⟨some b.corners, qmul b.confidence (Rat.divInt 9 10)⟩
  | none => ⟨none, 0⟩

/-- The detector's result `{corners, confidence, reason}`. -/
structure DetectionResult where
  corners : Option (List Pt)
  confidence : ℚ
  reason : Option String
deriving DecidableEq

/-- Embedding of `getDefaultCorners`: the image's bounding box inset by a
10% margin on each side. -/
def getDefaultCorners (width height : ℚ) : List Pt :=
  let marginX := qmul width (Rat.divInt 1 10)
  let marginY := qmul height (Rat.divInt 1 10)
  [⟨marginX, marginY⟩,
   ⟨qsub width marginX, marginY⟩,
   ⟨qsub width marginX, qsub height marginY⟩,
   ⟨marginX, qsub height marginY⟩]

/-- Embedding of `detectDocument` (scanner.js).  The only `throw` in the
source is the `isReady` guard (`'OpenCV not initialized'`), modelled as the
`Except.error` branch; with the scanner initialized every path returns a
result.  The three strategies are tried in order, stopping at the first
confidence strictly above `0.3`; otherwise the centred default rectangle is
returned with confidence `0` and reason `'Kein Dokument erkannt'`. -/
def detectDocument (isReady : Bool) (cannyContours adaptiveContours brightContours : List Contour)
    (cols rows : ℚ) : Except String DetectionResult :=
  if !isReady then .error "OpenCV not initialized"
  else
    let imageArea := qmul rows cols
    let d1 := strategyDetect cannyContours imageArea
    if Rat.divInt 3 10 < d1.confidence then .ok ⟨d1.corners, d1.confidence, none⟩
    else
      let d2 := strategyDetect adaptiveContours imageArea
      if Rat.divInt 3 10 < d2.confidence then .ok ⟨d2.corners, d2.confidence, none⟩
      else
        let d3 := detectBrightRegion brightContours imageArea
        if Rat.divInt 3 10 < d3.confidence then .ok ⟨d3.corners, d3.confidence, none⟩
        else .ok ⟨some (getDefaultCorners cols rows), 0, some "Kein Dokument erkannt"⟩

/-! ## Perspective transform output dimensions (scanner.js) -/

/-- Fuel-driven integer square root (the fuel only bounds the recursion
depth; `isqrt` supplies enough).  Follows the classic recurrence
`isqrt n = let r := 2 * isqrt (n / 4); if (r+1)² ≤ n then r+1 else r`. -/
def isqrtFuel : ℕ → ℕ → ℕ
  | 0, _ => 0
  | fuel + 1, n =>
      if n < 2 then n
      else
        let r := 2 * isqrtFuel fuel (n / 4)
        if (r + 1) * (r + 1) ≤ n then r + 1 else r

/-- Kernel-computable integer square root. -/
def isqrt (n : ℕ) : ℕ := isqrtFuel n n

theorem isqrtFuel_eq_sqrt : ∀ (fuel n : ℕ), n ≤ fuel → isqrtFuel fuel n = Nat.sqrt n := by
  intro fuel
  induction fuel with
  | zero =>
      intro n hn
      interval_cases n
      simp [isqrtFuel]
  | succ fuel ih =>
      intro n hn
      rw [isqrtFuel]
      by_cases h2 : n < 2
      · interval_cases n <;> simp
      · simp only [if_neg h2]
        have hrec : isqrtFuel fuel (n / 4) = Nat.sqrt (n / 4) := by
          apply ih
          omega
        rw [hrec]
        set s := Nat.sqrt (n / 4) with hs
        have h1 : s * s ≤ n / 4 := Nat.sqrt_le (n / 4)
        have hlt : n / 4 < (s + 1) * (s + 1) := Nat.lt_succ_sqrt (n / 4)
        have h4a : 4 * (n / 4) ≤ n := by omega
        have h4b : n < 4 * (n / 4) + 4 := by omega
        have hrle : 2 * s * (2 * s) ≤ n := by nlinarith
        have hrlt : n < (2 * s + 2) * (2 * s + 2) := by nlinarith
        by_cases hmid : (2 * s + 1) * (2 * s + 1) ≤ n
        · simp only [if_pos hmid]
          exact (Nat.eq_sqrt.mpr ⟨hmid, by nlinarith⟩)
        · simp only [if_neg hmid]
          exact (Nat.eq_sqrt.mpr ⟨hrle, by omega⟩)

theorem isqrt_eq_sqrt (n : ℕ) : isqrt n = Nat.sqrt n := isqrtFuel_eq_sqrt n n le_rfl

/-- `Math.round (Real.sqrt q)` for a rational `q ≥ 0`, computed exactly:
`round (√q) = ⌊√q + 1/2⌋ = ⌊(√(4q) + 1) / 2⌋ = (⌊√⌊4q⌋⌋ + 1) / 2`. -/
def roundSqrt (q : ℚ) : ℕ := (isqrt (qmul 4 q).floor.toNat + 1) / 2

/-- Embedding of the output-size computation of `perspectiveTransform`:
`outWidth = Math.max(100, Math.round(width))` and
`outHeight = Math.max(100, Math.round(height))`, where `width`/`height`
are the maximal side lengths (`widthSq`/`heightSq` are their squares). -/
def perspectiveTransformSize (c0 c1 c2 c3 : Pt) : ℕ × ℕ :=
  (max 100 (roundSqrt (widthSq c0 c1 c2 c3)),
   max 100 (roundSqrt (heightSq c0 c1 c2 c3)))

example : perspectiveTransformSize ⟨0, 0⟩ ⟨50, 0⟩ ⟨50, 50⟩ ⟨0, 50⟩ = (100, 100) := by decide

example : perspectiveTransformSize ⟨0, 0⟩ ⟨200, 0⟩ ⟨200, 300⟩ ⟨0, 300⟩ = (200, 300) := by decide

/-! ## Claim C1 (the corner-ordering bug) -/

/-- Claim C1 states that `orderCorners` returns every valid quadrilateral in
canonical [top-left, top-right, bottom-right, bottom-left] order and is the
identity on already-canonical input.  The code violates this, contradicting
its own doc comment ("Order corners: top-left, top-right, bottom-right,
bottom-left") and in-function comments: in screen coordinates (y down) the
ascending `atan2` sort already produces the visual order [TL, TR, BR, BL],
so the final reindexing `[ordered[0], ordered[3], ordered[2], ordered[1]]`
(written to convert a counter-clockwise order) flips TR and BL.  On the
already-canonical square [(0,0),(2,0),(2,2),(0,2)] the function returns
[(0,0),(0,2),(2,2),(2,0)], i.e. [TL, BL, BR, TL-mirrored order], not the
input. -/
theorem orderCorners_flips_canonical_square :
    orderCorners [⟨0, 0⟩, ⟨2, 0⟩, ⟨2, 2⟩, ⟨0, 2⟩] = [⟨0, 0⟩, ⟨0, 2⟩, ⟨2, 2⟩, ⟨2, 0⟩] ∧
    orderCorners [⟨0, 0⟩, ⟨2, 0⟩, ⟨2, 2⟩, ⟨0, 2⟩] ≠ [⟨0, 0⟩, ⟨2, 0⟩, ⟨2, 2⟩, ⟨0, 2⟩] := by
  decide

/-! ## Claim C2 (detector totality and fallback) -/

/-- Claim C2: with the scanner initialized (`isReady = true`, the only
`throw` in `detectDocument` is the initialization guard), detection always
returns a result; and when none of the three strategies reaches confidence
strictly above `0.3`, the result is exactly the image's bounding box inset
by a 10% margin on each side (`getDefaultCorners`), confidence `0`, and the
non-null human-readable reason `"Kein Dokument erkannt"`. -/
theorem detectDocument_total_and_default_fallback
    (c1 c2 c3 : List Contour) (cols rows : ℚ) :
    (∃ r, detectDocument true c1 c2 c3 cols rows = Except.ok r) ∧
    ((strategyDetect c1 (qmul rows cols)).confidence ≤ Rat.divInt 3 10 →
      (strategyDetect c2 (qmul rows cols)).confidence ≤ Rat.divInt 3 10 →
      (detectBrightRegion c3 (qmul rows cols)).confidence ≤ Rat.divInt 3 10 →
      detectDocument true c1 c2 c3 cols rows =
        Except.ok ⟨some (getDefaultCorners cols rows), 0, some "Kein Dokument erkannt"⟩) := by
  constructor
  · simp only [detectDocument, Bool.not_true, Bool.false_eq_true, if_false]
    split
    · exact ⟨_, rfl⟩
    · split
      · exact ⟨_, rfl⟩
      · split
        · exact ⟨_, rfl⟩
        · exact ⟨_, rfl⟩
  · intro h1 h2 h3
    simp only [detectDocument, Bool.not_true, Bool.false_eq_true, if_false]
    rw [if_neg (not_lt.mpr h1), if_neg (not_lt.mpr h2), if_neg (not_lt.mpr h3)]

/-- Witness for C2 at a concrete input: an initialized scanner on a
640×480 image in which every strategy produced no contour at all. -/
theorem detectDocument_total_and_default_fallback_witness :
    detectDocument true [] [] [] 640 480 =
      Except.ok ⟨some (getDefaultCorners 640 480), 0, some "Kein Dokument erkannt"⟩ :=
  (detectDocument_total_and_default_fallback [] [] [] 640 480).2
    (by decide) (by decide) (by decide)

/-! ## Claim C4 (perspective transform output size) -/

/-- Counterexample to Claim C4 as stated: warping a 50×50 image by its own
full-frame corners does not return a 50×50 output — both dimensions are
clamped up to the 100-pixel minimum. -/
theorem perspectiveTransformSize_small_frame_clamped :
    perspectiveTransformSize ⟨0, 0⟩ ⟨50, 0⟩ ⟨50, 50⟩ ⟨0, 50⟩ = (100, 100) ∧
    perspectiveTransformSize ⟨0, 0⟩ ⟨50, 0⟩ ⟨50, 50⟩ ⟨0, 50⟩ ≠ (50, 50) := by
  decide

/-- Claim C4, amended: the output size is
(`max 100 (round width)`, `max 100 (round height)`) with `width`/`height`
the maximal opposite-side lengths; and the full-frame round-trip returns
exactly W×H for all `W, H ≥ 100` (the 100-pixel floor forces this
restriction, which the original claim omitted). -/
theorem perspectiveTransformSize_formula_and_roundtrip :
    (∀ c0 c1 c2 c3 : Pt,
      perspectiveTransformSize c0 c1 c2 c3 =
        (max 100 (roundSqrt (widthSq c0 c1 c2 c3)),
         max 100 (roundSqrt (heightSq c0 c1 c2 c3)))) ∧
    (∀ W H : ℕ, 100 ≤ W → 100 ≤ H →
      perspectiveTransformSize ⟨0, 0⟩ ⟨(W : ℚ), 0⟩ ⟨(W : ℚ), (H : ℚ)⟩ ⟨0, (H : ℚ)⟩ =
        (W, H)) := by
  constructor
  · intro c0 c1 c2 c3
    rfl
  · intro W H hW hH
    have square : ∀ n : ℕ, roundSqrt (qmul ((n : ℚ)) ((n : ℚ))) = n := by
      intro n
      have hfloor : (qmul 4 (qmul ((n : ℚ)) ((n : ℚ)))).floor = ((4 * n * n : ℕ) : ℤ) := by
        have hrf : ∀ q : ℚ, q.floor = ⌊q⌋ := fun q => rfl
        simp only [qmul_eq, hrf]
        rw [show (4 : ℚ) * ((n : ℚ) * (n : ℚ)) = ((4 * n * n : ℕ) : ℚ) by push_cast; ring]
        exact Int.floor_natCast _
      rw [roundSqrt, hfloor]
      have htn : ((4 * n * n : ℕ) : ℤ).toNat = 4 * n * n := by omega
      rw [htn, isqrt_eq_sqrt]
      have : 4 * n * n = (2 * n) * (2 * n) := by ring
      rw [this, Nat.sqrt_eq]
      omega
    have hw2 : widthSq ⟨0, 0⟩ ⟨(W : ℚ), 0⟩ ⟨(W : ℚ), (H : ℚ)⟩ ⟨0, (H : ℚ)⟩ =
        qmul ((W : ℚ)) ((W : ℚ)) := by
      simp only [widthSq, dist2, qmax, qadd_eq, qsub_eq, qmul_eq]
      norm_num
    have hh2 : heightSq ⟨0, 0⟩ ⟨(W : ℚ), 0⟩ ⟨(W : ℚ), (H : ℚ)⟩ ⟨0, (H : ℚ)⟩ =
        qmul ((H : ℚ)) ((H : ℚ)) := by
      simp only [heightSq, dist2, qmax, qadd_eq, qsub_eq, qmul_eq]
      norm_num
    rw [perspectiveTransformSize, hw2, hh2, square W, square H]
    rw [Nat.max_eq_right hW, Nat.max_eq_right hH]

/-- Witness for C4's amended round-trip at the concrete frame 120×150. -/
theorem perspectiveTransformSize_formula_and_roundtrip_witness :
    perspectiveTransformSize ⟨0, 0⟩ ⟨((120 : ℕ) : ℚ), 0⟩
      ⟨((120 : ℕ) : ℚ), ((150 : ℕ) : ℚ)⟩ ⟨0, ((150 : ℕ) : ℚ)⟩ = (120, 150) :=
  perspectiveTransformSize_formula_and_roundtrip.2 120 150 (by decide) (by decide)

/-! ## Claim C3 (contour filtering and scoring) -/

/-- A contour survives the `findBestQuadrilateral` loop iff its area
fraction is within `[10%, 98%]` (strict rejection outside), it yields a
corner candidate, and that candidate passes the aspect-ratio filter. -/
def contourQualifies (imageArea : ℚ) (c : Contour) : Bool :=
  decide (¬(qdiv c.area imageArea < Rat.divInt 1 10 ∨
            Rat.divInt 98 100 < qdiv c.area imageArea)) &&
  (match candCorners c with
   | some k => aspectAccept k
   | none => false)

/-- Invariant of the loop while the running best is `none`: no processed
contour qualifies. -/
def noneInv (A : ℚ) (processed : List Contour) : Prop :=
  ∀ c ∈ processed, contourQualifies A c = false

/-- Invariant of the loop while the running best is `some b`: `b` comes
from a qualifying processed contour and its confidence dominates all
qualifying processed contours. -/
def someInv (A : ℚ) (processed : List Contour) (b : BestQuad) : Prop :=
  (∃ c ∈ processed, contourQualifies A c = true ∧ candCorners c = some b.corners ∧
     b.confidence = confidenceFor (qdiv c.area A)) ∧
  ∀ c ∈ processed, contourQualifies A c = true →
    confidenceFor (qdiv c.area A) ≤ b.confidence

/-- Combined loop invariant. -/
def bestInv (A : ℚ) (processed : List Contour) : Option BestQuad → Prop
  | none => noneInv A processed
  | some b => someInv A processed b

theorem noneInv_extend {A : ℚ} {processed : List Contour} {c : Contour}
    (h : noneInv A processed) (hq : contourQualifies A c = false) :
    noneInv A (processed ++ [c]) := by
  intro x hx
  rcases List.mem_append.mp hx with hx | hx
  · exact h x hx
  · rw [List.mem_singleton.mp hx]
    exact hq

theorem someInv_extend_notqual {A : ℚ} {processed : List Contour} {c : Contour} {b : BestQuad}
    (h : someInv A processed b) (hq : contourQualifies A c = false) :
    someInv A (processed ++ [c]) b := by
  constructor
  · obtain ⟨x, hx, hrest⟩ := h.1
    exact ⟨x, List.mem_append.mpr (Or.inl hx), hrest⟩
  · intro x hx hqx
    rcases List.mem_append.mp hx with hx | hx
    · exact h.2 x hx hqx
    · rw [List.mem_singleton.mp hx] at hqx
      rw [hqx] at hq
      cases hq

theorem bestInv_extend_notqual {A : ℚ} {processed : List Contour} {c : Contour}
    {acc : Option BestQuad} (h : bestInv A processed acc)
    (hq : contourQualifies A c = false) : bestInv A (processed ++ [c]) acc := by
  cases acc with
  | none => exact noneInv_extend h hq
  | some b => exact someInv_extend_notqual h hq

theorem considerContour_inv (A : ℚ) (processed : List Contour)
    (acc : Option BestQuad) (c : Contour) (h : bestInv A processed acc) :
    bestInv A (processed ++ [c]) (considerContour A acc c) := by
  by_cases hArea : qdiv c.area A < Rat.divInt 1 10 ∨ Rat.divInt 98 100 < qdiv c.area A
  · have hres : considerContour A acc c = acc := by
      rw [considerContour, if_pos hArea]
    have hq : contourQualifies A c = false := by
      simp only [contourQualifies, Bool.and_eq_false_iff]
      left
      simp [hArea]
    rw [hres]
    exact bestInv_extend_notqual h hq
  · cases hcand : candCorners c with
    | none =>
        have hres : considerContour A acc c = acc := by
          simp [considerContour, hArea, hcand]
        have hq : contourQualifies A c = false := by
          simp only [contourQualifies, hcand, Bool.and_false]
        rw [hres]
        exact bestInv_extend_notqual h hq
    | some k =>
        by_cases hAsp : aspectAccept k = true
        · have hq : contourQualifies A c = true := by
            simp only [contourQualifies, hcand, hAsp, Bool.and_true, decide_eq_true_eq]
            exact hArea
          cases acc with
          | none =>
              have hres : considerContour A none c =
                  some ⟨k, confidenceFor (qdiv c.area A), qdiv c.area A⟩ := by
                simp [considerContour, hArea, hcand, hAsp]
              rw [hres]
              constructor
              · exact ⟨c, List.mem_append.mpr (Or.inr (List.mem_singleton.mpr rfl)),
                  hq, hcand, rfl⟩
              · intro x hx hqx
                rcases List.mem_append.mp hx with hx | hx
                · rw [h x hx] at hqx
                  cases hqx
                · rw [List.mem_singleton.mp hx]
          | some b =>
              by_cases hcmp : b.confidence < confidenceFor (qdiv c.area A)
              · have hres : considerContour A (some b) c =
                    some ⟨k, confidenceFor (qdiv c.area A), qdiv c.area A⟩ := by
                  simp [considerContour, hArea, hcand, hAsp, hcmp]
                rw [hres]
                constructor
                · exact ⟨c, List.mem_append.mpr (Or.inr (List.mem_singleton.mpr rfl)),
                    hq, hcand, rfl⟩
                · intro x hx hqx
                  rcases List.mem_append.mp hx with hx | hx
                  · exact (h.2 x hx hqx).trans hcmp.le
                  · rw [List.mem_singleton.mp hx]
              · have hres : considerContour A (some b) c = some b := by
                  simp [considerContour, hArea, hcand, hAsp, hcmp]
                rw [hres]
                constructor
                · obtain ⟨x, hx, hrest⟩ := h.1
                  exact ⟨x, List.mem_append.mpr (Or.inl hx), hrest⟩
                · intro x hx hqx
                  rcases List.mem_append.mp hx with hx | hx
                  · exact h.2 x hx hqx
                  · rw [List.mem_singleton.mp hx]
                    exact not_lt.mp hcmp
        · have hq : contourQualifies A c = false := by
            simp only [contourQualifies, hcand]
            simp [hAsp]
          have hres : considerContour A acc c = acc := by
            cases acc <;> simp [considerContour, hArea, hcand, hAsp]
          rw [hres]
          exact bestInv_extend_notqual h hq

theorem foldl_bestInv (A : ℚ) :
    ∀ (cs : List Contour) (acc : Option BestQuad) (processed : List Contour),
      bestInv A processed acc →
      bestInv A (processed ++ cs) (List.foldl (considerContour A) acc cs) := by
  intro cs
  induction cs with
  | nil =>
      intro acc processed h
      simpa using h
  | cons c t ih =>
      intro acc processed h
      have h2 := ih (considerContour A acc c) (processed ++ [c])
        (considerContour_inv A processed acc c h)
      simpa [List.append_assoc] using h2

/-- Claim C3: `findBestQuadrilateral` (i) only returns candidates that pass
the strict area-fraction filter `[10%, 98%]` and the aspect filter, with
confidence exactly `min(areaPercent ⋅ 2.5, 1)`; (ii) its result dominates
the confidence of every qualifying contour; (iii) it returns `none` when
every contour is rejected; (iv) any well-defined aspect ratio outside
`[0.4, 2.5]` (stated on squares: `mx/mn ∉ [4/25, 25/4]` with `mn ≠ 0`) is
rejected; and (v) the confidence formula is monotone in the area fraction
and never exceeds 1. -/
theorem findBestQuadrilateral_filters_and_scores :
    (∀ (contours : List Contour) (A : ℚ),
      (∀ b, findBestQuadrilateral contours A = some b →
        ∃ c ∈ contours, contourQualifies A c = true ∧ candCorners c = some b.corners ∧
          b.confidence = confidenceFor (qdiv c.area A)) ∧
      (∀ c ∈ contours, contourQualifies A c = true →
        ∃ b, findBestQuadrilateral contours A = some b ∧
          confidenceFor (qdiv c.area A) ≤ b.confidence) ∧
      ((∀ c ∈ contours, contourQualifies A c = false) →
        findBestQuadrilateral contours A = none)) ∧
    (∀ (A : ℚ) (c : Contour),
      (qdiv c.area A < Rat.divInt 1 10 ∨ Rat.divInt 98 100 < qdiv c.area A) →
      contourQualifies A c = false) ∧
    (∀ c0 c1 c2 c3 : Pt,
      qmin (widthSq c0 c1 c2 c3) (heightSq c0 c1 c2 c3) ≠ 0 →
      (qdiv (qmax (widthSq c0 c1 c2 c3) (heightSq c0 c1 c2 c3))
            (qmin (widthSq c0 c1 c2 c3) (heightSq c0 c1 c2 c3)) < Rat.divInt 4 25 ∨
       Rat.divInt 25 4 <
         qdiv (qmax (widthSq c0 c1 c2 c3) (heightSq c0 c1 c2 c3))
              (qmin (widthSq c0 c1 c2 c3) (heightSq c0 c1 c2 c3))) →
      aspectAccept [c0, c1, c2, c3] = false) ∧
    (∀ a1 a2 : ℚ, a1 ≤ a2 → confidenceFor a1 ≤ confidenceFor a2) ∧
    (∀ a : ℚ, confidenceFor a ≤ 1) := by
  refine ⟨?_, ?_, ?_, ?_, ?_⟩
  · intro contours A
    have hinv : bestInv A contours (findBestQuadrilateral contours A) := by
      have h0 : bestInv A [] none := by
        intro c hc
        cases hc
      have := foldl_bestInv A contours none [] h0
      simpa [findBestQuadrilateral] using this
    refine ⟨?_, ?_, ?_⟩
    · intro b hb
      rw [hb] at hinv
      exact hinv.1
    · intro c hc hq
      cases hres : findBestQuadrilateral contours A with
      | none =>
          rw [hres] at hinv
          rw [hinv c hc] at hq
          cases hq
      | some b =>
          rw [hres] at hinv
          exact ⟨b, rfl, hinv.2 c hc hq⟩
    · intro hall
      cases hres : findBestQuadrilateral contours A with
      | none => rfl
      | some b =>
          rw [hres] at hinv
          obtain ⟨c, hc, hq, _⟩ := hinv.1
          rw [hall c hc] at hq
          cases hq
  · intro A c hArea
    simp only [contourQualifies, Bool.and_eq_false_iff]
    left
    simp [hArea]
  · intro c0 c1 c2 c3 hmn hout
    simp only [aspectAccept, if_neg hmn]
    rcases hout with hout | hout
    · simp [not_le.mpr hout]
    · simp [not_le.mpr hout]
  · intro a1 a2 h12
    simp only [confidenceFor, qmin_eq, qmul_eq, Rat.divInt_eq_div]
    have hmul : a1 * ((5 : ℚ) / 2) ≤ a2 * ((5 : ℚ) / 2) := by nlinarith
    exact min_le_min hmul le_rfl
  · intro a
    simp only [confidenceFor, qmin_eq, qmul_eq]
    exact min_le_right _ _

/-- Witness for C3 at a concrete contour list: a single 4-vertex contour
covering 40% of a 100-pixel image qualifies and the returned best
dominates its confidence `min(0.4 ⋅ 2.5, 1) = 1`. -/
theorem findBestQuadrilateral_filters_and_scores_witness :
    ∃ b, findBestQuadrilateral
        [⟨4000, [⟨10, 10⟩, ⟨90, 10⟩, ⟨90, 60⟩, ⟨10, 60⟩], ⟨0, 0⟩, ⟨0, 0⟩, ⟨0, 0⟩, ⟨0, 0⟩⟩]
        10000 = some b ∧
      confidenceFor (qdiv 4000 10000) ≤ b.confidence :=
  ((findBestQuadrilateral_filters_and_scores.1
      [⟨4000, [⟨10, 10⟩, ⟨90, 10⟩, ⟨90, 60⟩, ⟨10, 60⟩], ⟨0, 0⟩, ⟨0, 0⟩, ⟨0, 0⟩, ⟨0, 0⟩⟩]
      10000).2.1)
    ⟨4000, [⟨10, 10⟩, ⟨90, 10⟩, ⟨90, 60⟩, ⟨10, 60⟩], ⟨0, 0⟩, ⟨0, 0⟩, ⟨0, 0⟩, ⟨0, 0⟩⟩
    (List.mem_singleton.mpr rfl) (by decide)

/-! ## Keyword classification (classifier.js, final revision)

Strings are compared exactly as the source does: the OCR text is lowered
(`text.toLowerCase()`, modelled for A–Z and the German umlauts) and each
keyword is tested with `String.prototype.includes`, i.e. a substring
check. -/

/-- `toLowerCase` on one character (ASCII letters and German umlauts; all
keywords and inputs in this development use only these). -/
def lowerChar (c : Char) : Char :=
  if 'A' ≤ c ∧ c ≤ 'Z' then Char.ofNat (c.toNat + 32)
  else if c = 'Ä' then 'ä' else if c = 'Ö' then 'ö' else if c = 'Ü' then 'ü' else c

/-- `text.toLowerCase()`. -/
def jsToLower (s : String) : String := String.mk (s.data.map lowerChar)

/-- Does the list start with the given pattern? -/
def startsWithL : List Char → List Char → Bool
  | _, [] => true
  | [], _ :: _ => false
  | h :: t, p :: ps => h == p && startsWithL t ps

/-- Substring occurrence test, `hasSub pat hay`. -/
def hasSub (pat : List Char) : List Char → Bool
  | [] => pat.isEmpty
  | h :: t => startsWithL (h :: t) pat || hasSub pat t

/-- `hay.includes(pat)`. -/
def jsIncludes (hay pat : String) : Bool := hasSub pat.data hay.data

/-- The score table of `keywordClassify`, in source (insertion) order: every
category starts at `0` except the catch-all `'other'`, which gets the base
score `0.1`. -/
def initScores : List (String × ℚ) :=
  [("fin-gehalt", 0), ("fin-steuer", 0), ("fin-bauspar", 0), ("fin-dkb", 0),
   ("fin-haspa", 0), ("fin-depot", 0), ("fin-bav", 0), ("fin-kreditkarte", 0),
   ("rechnung", 0),
   ("vertrag-erdgas", 0), ("vertrag-mobilfunk", 0), ("vertrag-internet", 0),
   ("vertrag-strom", 0),
   ("vers-auto", 0), ("vers-bu", 0), ("vers-rente", 0), ("vers-haftpflicht", 0),
   ("vers-hausrat", 0), ("vers-kranken", 0), ("vers-kuendigung", 0),
   ("vers-rechtsschutz", 0), ("vers-reise", 0), ("vers-risiko-jan", 0),
   ("vers-wohngebaeude", 0), ("vers-zahn", 0),
   ("medizin", 0), ("ehe", 0), ("kind-salome", 0), ("kind-david", 0),
   ("other", Rat.divInt 1 10)]

/-- The strong keyword table (weight 3). -/
def strongKeywords : List (String × List String) :=
  [("fin-gehalt", ["gehaltsabrechnung", "entgeltabrechnung", "lohnabrechnung",
      "bruttolohn", "nettolohn", "arbeitgeber"]),
   ("fin-steuer", ["finanzamt", "steuerbescheid", "einkommensteuer", "steuernummer",
      "elster", "steuererklärung", "lohnsteuer"]),
   ("fin-bauspar", ["bausparkasse", "bausparvertrag", "schwäbisch hall", "wüstenrot",
      "bausparsumme"]),
   ("fin-dkb", ["deutsche kreditbank", "dkb"]),
   ("fin-haspa", ["hamburger sparkasse", "haspa"]),
   ("fin-depot", ["wertpapierdepot", "depot", "aktien", "wertpapier", "fonds", "etf",
      "dividende"]),
   ("fin-bav", ["betriebliche altersvorsorge", "direktversicherung", "pensionskasse",
      "unterstützungskasse"]),
   ("fin-kreditkarte", ["kreditkartenabrechnung", "visa", "mastercard", "kreditkarte"]),
   ("rechnung", ["rechnung", "rechnungsnummer", "rechnungsbetrag", "zahlungsziel",
      "invoice"]),
   ("vertrag-erdgas", ["erdgas", "gasvertrag", "gaslieferung", "stadtwerke"]),
   ("vertrag-mobilfunk", ["mobilfunk", "handyvertrag", "telekom", "vodafone", "o2",
      "congstar", "simkarte"]),
   ("vertrag-internet", ["internetvertrag", "dsl", "glasfaser", "router",
      "telefonanschluss"]),
   ("vertrag-strom", ["stromvertrag", "stromlieferung", "kwh", "stromzähler",
      "vattenfall", "eon"]),
   ("vers-auto", ["kfz-versicherung", "autoversicherung", "haftpflicht kfz",
      "teilkasko", "vollkasko", "e-scooter"]),
   ("vers-bu", ["berufsunfähigkeit", "bu-versicherung", "erwerbsminderung"]),
   ("vers-rente", ["deutsche rentenversicherung", "rentenversicherung",
      "rentenbescheid", "versicherungsnummer"]),
   ("vers-haftpflicht", ["privathaftpflicht", "haftpflichtversicherung",
      "personenschaden", "sachschaden"]),
   ("vers-hausrat", ["hausratversicherung", "hausrat", "einbruchdiebstahl",
      "brandschaden"]),
   ("vers-kranken", ["krankenversicherung", "krankenkasse", "tk", "aok", "barmer",
      "dak", "versichertenkarte"]),
   ("vers-kuendigung", ["kündigung", "kündigungsbestätigung",
      "versicherung gekündigt"]),
   ("vers-rechtsschutz", ["rechtsschutzversicherung", "rechtsschutz",
      "anwaltskosten"]),
   ("vers-reise", ["reiserücktritt", "reisekranken", "auslandskranken",
      "reiseversicherung"]),
   ("vers-risiko-jan", ["risikolebensversicherung", "todesfallleistung"]),
   ("vers-wohngebaeude", ["wohngebäudeversicherung", "gebäudeversicherung",
      "elementarschaden"]),
   ("vers-zahn", ["zahnzusatzversicherung", "zahnersatz", "zahnbehandlung"]),
   ("medizin", ["diagnose", "patient", "arztpraxis", "rezept", "befund",
      "krankenhaus", "überweisung"]),
   ("ehe", ["heiratsurkunde", "eheurkunde", "standesamt", "trauung",
      "eheschließung"]),
   ("kind-salome", ["salomé", "salome"]),
   ("kind-david", ["david"])]

/-- The medium keyword table (weight 1). -/
def mediumKeywords : List (String × List String) :=
  [("fin-gehalt", ["gehalt", "lohn", "vergütung", "sozialversicherung"]),
   ("fin-steuer", ["steuer", "abgabe", "einkommen", "bescheid"]),
   ("rechnung", ["betrag", "mwst", "netto", "brutto", "fällig", "zahlen"]),
   ("medizin", ["arzt", "medizin", "behandlung", "gesundheit", "therapie",
      "praxis"])]

/-- `scores[category] += v` (every bumped category exists in the table; on a
missing key this is a no-op). -/
def bump (l : List (String × ℚ)) (cat : String) (v : ℚ) : List (String × ℚ) :=
  l.map (fun kv => if kv.1 = cat then (kv.1, qadd kv.2 v) else kv)

/-- The nested keyword-scoring loops: for each `(category, keywords)` entry
and each keyword, add `weight` to the category's score if the keyword occurs
in the lowered text. -/
def applyKeywordTable (weight : ℚ) (table : List (String × List String))
    (textLower : String) (scores : List (String × ℚ)) : List (String × ℚ) :=
  table.foldl
    (fun sc entry =>
      entry.2.foldl
        (fun sc2 kw => if jsIncludes textLower kw then bump sc2 entry.1 weight else sc2)
        sc)
    scores

/-- The structured data read by the classifier (the final revision of
`keywordClassify` reads only `amounts`; `classify` additionally reads
`dates` and `sender`). -/
structure StructuredData where
  dates : List String
  amounts : List String
  sender : Option String
deriving DecidableEq

/-- One step of the arg-max/total loop
`for (const [category, score] of Object.entries(scores))`. -/
def scoreStep (acc : String × ℚ × ℚ) (kv : String × ℚ) : String × ℚ × ℚ :=
  if acc.2.1 < kv.2 then (kv.1, kv.2, qadd acc.2.2 kv.2)
  else (acc.1, acc.2.1, qadd acc.2.2 kv.2)

/-- The loop computing `(bestCategory, bestScore, totalScore)`, starting
from `('other', 0, 0)`. -/
def scoreLoop (l : List (String × ℚ)) : String × ℚ × ℚ :=
  l.foldl scoreStep ("other", 0, 0)

/-- A `ClassificationResult` as produced by the keyword stage. -/
structure KwResult where
  category : String
  confidence : ℚ
  scores : List (String × ℚ)
  method : String
deriving DecidableEq

/-- The final score table of `keywordClassify`: strong keywords add 3,
medium keywords add 1, and `'rechnung'` gets a bonus point when any
currency amount was extracted. -/
def kcScores (text : String) (structuredData : StructuredData) : List (String × ℚ) :=
  let textLower := jsToLower text
  let s1 := applyKeywordTable 3 strongKeywords textLower initScores
  let s2 := applyKeywordTable 1 mediumKeywords textLower s1
  if 0 < structuredData.amounts.length then bump s2 "rechnung" 1 else s2

/-- Embedding of `keywordClassify` (classifier.js, final revision): build
the score table (`kcScores`), then pick the arg-max with confidence
`min(bestScore / max(totalScore * 0.5, 5), 1)` when `totalScore > 0`,
else `0.1`. -/
def keywordClassify (text : String) (structuredData : StructuredData) : KwResult :=
  let r := scoreLoop (kcScores text structuredData)
  let confidence :=
    if 0 < r.2.2 then qmin (qdiv r.2.1 (qmax (qmul r.2.2 (Rat.divInt 1 2)) 5)) 1
    else Rat.divInt 1 10
  ⟨r.1, confidence, kcScores text structuredData, "keyword"⟩

set_option maxRecDepth 100000 in
example : (keywordClassify "Rechnung" ⟨[], [], none⟩).category = "rechnung" := by decide

set_option maxRecDepth 100000 in
example : (keywordClassify "Rechnung" ⟨[], [], none⟩).confidence = Rat.divInt 3 5 := by decide

set_option maxRecDepth 100000 in
example : ("rechnung", 3) ∈ (keywordClassify "Rechnung" ⟨[], [], none⟩).scores := by decide

/-! ## Properties of the score loop and score tables (for C6, C7, C10) -/

/-- The sum of all scores in a table (the loop's `totalScore`). -/
def tableTotal (l : List (String × ℚ)) : ℚ := (l.map Prod.snd).sum

/-- The maximal score in a table, at least 0 (the loop's `bestScore`). -/
def tableBest (l : List (String × ℚ)) : ℚ := (l.map Prod.snd).foldl max 0

theorem foldl_max_mono : ∀ (l : List ℚ) {a b : ℚ}, a ≤ b → l.foldl max a ≤ l.foldl max b := by
  intro l
  induction l with
  | nil => intro a b h; simpa using h
  | cons v t ih =>
      intro a b h
      simp only [List.foldl_cons]
      exact ih (max_le_max h le_rfl)

theorem le_foldl_max : ∀ (l : List ℚ) (a : ℚ), a ≤ l.foldl max a := by
  intro l
  induction l with
  | nil => intro a; simp
  | cons v t ih =>
      intro a
      simp only [List.foldl_cons]
      exact le_trans (le_max_left a v) (ih (max a v))

theorem mem_le_foldl_max : ∀ (l : List ℚ) (a : ℚ) {v : ℚ}, v ∈ l → v ≤ l.foldl max a := by
  intro l
  induction l with
  | nil => intro a v hv; cases hv
  | cons w t ih =>
      intro a v hv
      simp only [List.foldl_cons]
      rcases List.mem_cons.mp hv with rfl | hv
      · exact le_trans (le_max_right a v) (le_foldl_max t (max a v))
      · exact ih (max a w) hv

theorem scoreStep_foldl_total :
    ∀ (l : List (String × ℚ)) (bc : String) (bs ts : ℚ),
      (l.foldl scoreStep (bc, bs, ts)).2.2 = ts + (l.map Prod.snd).sum := by
  intro l
  induction l with
  | nil => intro bc bs ts; simp
  | cons kv t ih =>
      intro bc bs ts
      simp only [List.foldl_cons, scoreStep]
      by_cases h : bs < kv.2
      · rw [if_pos h, ih, qadd_eq, List.map_cons, List.sum_cons]
        ring
      · rw [if_neg h, ih, qadd_eq, List.map_cons, List.sum_cons]
        ring

theorem scoreStep_foldl_best :
    ∀ (l : List (String × ℚ)) (bc : String) (bs ts : ℚ),
      (l.foldl scoreStep (bc, bs, ts)).2.1 = (l.map Prod.snd).foldl max bs := by
  intro l
  induction l with
  | nil => intro bc bs ts; simp
  | cons kv t ih =>
      intro bc bs ts
      simp only [List.foldl_cons, scoreStep]
      by_cases h : bs < kv.2
      · rw [if_pos h, ih, List.map_cons, List.foldl_cons, max_eq_right h.le]
      · rw [if_neg h, ih, List.map_cons, List.foldl_cons, max_eq_left (not_lt.mp h)]

theorem scoreStep_foldl_fst :
    ∀ (l : List (String × ℚ)) (bc : String) (bs ts : ℚ),
      (l.foldl scoreStep (bc, bs, ts)).1 = bc ∨
        (l.foldl scoreStep (bc, bs, ts)).1 ∈ l.map Prod.fst := by
  intro l
  induction l with
  | nil => intro bc bs ts; exact Or.inl rfl
  | cons kv t ih =>
      intro bc bs ts
      simp only [List.foldl_cons, scoreStep]
      by_cases h : bs < kv.2
      · rw [if_pos h]
        rcases ih kv.1 kv.2 (qadd ts kv.2) with h1 | h1
        · exact Or.inr (by rw [h1]; exact List.mem_cons_self _ _)
        · exact Or.inr (List.mem_cons_of_mem _ h1)
      · rw [if_neg h]
        rcases ih bc bs (qadd ts kv.2) with h1 | h1
        · exact Or.inl h1
        · exact Or.inr (List.mem_cons_of_mem _ h1)

theorem scoreLoop_total (l : List (String × ℚ)) : (scoreLoop l).2.2 = tableTotal l := by
  rw [scoreLoop, scoreStep_foldl_total, tableTotal, zero_add]

theorem scoreLoop_best (l : List (String × ℚ)) : (scoreLoop l).2.1 = tableBest l := by
  rw [scoreLoop, scoreStep_foldl_best, tableBest]

theorem scoreLoop_fst (l : List (String × ℚ)) :
    (scoreLoop l).1 = "other" ∨ (scoreLoop l).1 ∈ l.map Prod.fst :=
  scoreStep_foldl_fst l "other" 0 0

/-- Well-formedness of a score table: all scores nonnegative, an `'other'`
entry worth at least the `0.1` base score, and the key list of
`initScores`. -/
def goodTable (l : List (String × ℚ)) : Prop :=
  (∀ kv ∈ l, 0 ≤ kv.2) ∧ (∃ w, ("other", w) ∈ l ∧ Rat.divInt 1 10 ≤ w) ∧
  l.map Prod.fst = initScores.map Prod.fst

theorem bump_good {l : List (String × ℚ)} {c : String} {v : ℚ}
    (hv : 0 ≤ v) (h : goodTable l) : goodTable (bump l c v) := by
  obtain ⟨hnn, ⟨w, hw, hge⟩, hkeys⟩ := h
  refine ⟨?_, ?_, ?_⟩
  · intro kv hkv
    obtain ⟨kv0, hkv0, hmap⟩ := List.mem_map.mp hkv
    by_cases hc : kv0.1 = c
    · rw [if_pos hc] at hmap
      rw [← hmap]
      have := hnn kv0 hkv0
      simp only [qadd_eq]
      linarith
    · rw [if_neg hc] at hmap
      rw [← hmap]
      exact hnn kv0 hkv0
  · have hmem := List.mem_map_of_mem
      (fun kv => if kv.1 = c then (kv.1, qadd kv.2 v) else kv) hw
    by_cases hc : (("other", w) : String × ℚ).1 = c
    · simp only [if_pos hc] at hmem
      refine ⟨qadd w v, hmem, ?_⟩
      rw [qadd_eq]
      linarith
    · simp only [if_neg hc] at hmem
      exact ⟨w, hmem, hge⟩
  · rw [← hkeys, bump, List.map_map]
    apply List.map_congr_left
    intro kv _
    by_cases hc : kv.1 = c
    · rw [Function.comp_apply, if_pos hc]
    · rw [Function.comp_apply, if_neg hc]

theorem foldKw_good {cat : String} (w : ℚ) (hw : 0 ≤ w) (textLower : String) :
    ∀ (kws : List String) (l : List (String × ℚ)), goodTable l →
      goodTable (kws.foldl
        (fun sc kw => if jsIncludes textLower kw then bump sc cat w else sc) l) := by
  intro kws
  induction kws with
  | nil => intro l h; exact h
  | cons kw t ih =>
      intro l h
      rw [List.foldl_cons]
      by_cases hkw : jsIncludes textLower kw
      · rw [if_pos hkw]
        exact ih _ (bump_good hw h)
      · rw [if_neg hkw]
        exact ih _ h

theorem applyTable_good (w : ℚ) (hw : 0 ≤ w) (textLower : String) :
    ∀ (tbl : List (String × List String)) (l : List (String × ℚ)), goodTable l →
      goodTable (applyKeywordTable w tbl textLower l) := by
  intro tbl
  induction tbl with
  | nil => intro l h; exact h
  | cons e t ih =>
      intro l h
      rw [applyKeywordTable, List.foldl_cons]
      exact ih _ (foldKw_good w hw textLower e.2 l h)

theorem initScores_good : goodTable initScores := by
  refine ⟨by decide, ⟨Rat.divInt 1 10, by decide, le_refl _⟩, rfl⟩

theorem kcScores_good (text : String) (sd : StructuredData) :
    goodTable (kcScores text sd) := by
  rw [kcScores]
  have h1 := applyTable_good 3 (by norm_num) (jsToLower text) strongKeywords initScores
    initScores_good
  have h2 := applyTable_good 1 (by norm_num) (jsToLower text) mediumKeywords _ h1
  by_cases ha : 0 < sd.amounts.length
  · simp only [if_pos ha]
    exact bump_good (by norm_num) h2
  · simp only [if_neg ha]
    exact h2

theorem tableTotal_pos {l : List (String × ℚ)} (h : goodTable l) : 0 < tableTotal l := by
  obtain ⟨hnn, ⟨w, hw, hge⟩, _⟩ := h
  have hwmem : w ∈ l.map Prod.snd := List.mem_map_of_mem Prod.snd hw
  have hle : w ≤ (l.map Prod.snd).sum := by
    apply List.single_le_sum _ _ hwmem
    intro v hv
    obtain ⟨kv, hkv, rfl⟩ := List.mem_map.mp hv
    exact hnn kv hkv
  have h01 : (0 : ℚ) < Rat.divInt 1 10 := by
    rw [Rat.divInt_eq_div]
    norm_num
  exact lt_of_lt_of_le h01 (le_trans hge hle)

theorem tableBest_ge {l : List (String × ℚ)} (h : goodTable l) :
    Rat.divInt 1 10 ≤ tableBest l := by
  obtain ⟨_, ⟨w, hw, hge⟩, _⟩ := h
  have hwmem : w ∈ l.map Prod.snd := List.mem_map_of_mem Prod.snd hw
  exact le_trans hge (mem_le_foldl_max _ 0 hwmem)

/-- The confidence constants, rewritten with standard operations. -/
theorem kcConf_eq (text : String) (sd : StructuredData) :
    (keywordClassify text sd).confidence =
      min (tableBest (kcScores text sd) /
            max (tableTotal (kcScores text sd) * (1 / 2 : ℚ)) 5) 1 := by
  have htot := scoreLoop_total (kcScores text sd)
  have hbest := scoreLoop_best (kcScores text sd)
  have hpos : 0 < tableTotal (kcScores text sd) := tableTotal_pos (kcScores_good text sd)
  show (if 0 < (scoreLoop (kcScores text sd)).2.2 then _ else _) = _
  rw [htot, hbest, if_pos hpos, qmin_eq, qdiv_eq, qmax_eq, qmul_eq]
  norm_num [Rat.divInt_eq_div]

theorem kcConf_pos (text : String) (sd : StructuredData) :
    0 < (keywordClassify text sd).confidence := by
  rw [kcConf_eq]
  have hgood := kcScores_good text sd
  have hb : (0 : ℚ) < tableBest (kcScores text sd) := by
    have h01 : (0 : ℚ) < Rat.divInt 1 10 := by
      rw [Rat.divInt_eq_div]
      norm_num
    exact lt_of_lt_of_le h01 (tableBest_ge hgood)
  have hd : (0 : ℚ) < max (tableTotal (kcScores text sd) * (1 / 2 : ℚ)) 5 :=
    lt_of_lt_of_le (by norm_num) (le_max_right _ _)
  exact lt_min (div_pos hb hd) one_pos

theorem kcConf_le_one (text : String) (sd : StructuredData) :
    (keywordClassify text sd).confidence ≤ 1 := by
  rw [kcConf_eq]
  exact min_le_right _ _

/-! ## Claim C10 (base score makes the zero-total branch dead) -/

/-- Claim C10: the score table carries a constant `0.1` base entry for
`'other'`; consequently, for every text and structured-data input the
total score is strictly positive, the `totalScore = 0` fallback branch is
unreachable (the returned confidence always equals the positive-total
formula), a winning category (a key of the score table) is always
returned, and the confidence lies in `(0, 1]` — in particular it is never
exactly `0`. -/
theorem keywordClassify_base_score_consequences :
    ("other", Rat.divInt 1 10) ∈ initScores ∧
    ∀ (text : String) (sd : StructuredData),
      0 < tableTotal ((keywordClassify text sd).scores) ∧
      (keywordClassify text sd).confidence =
        min (tableBest ((keywordClassify text sd).scores) /
              max (tableTotal ((keywordClassify text sd).scores) * (1 / 2 : ℚ)) 5) 1 ∧
      0 < (keywordClassify text sd).confidence ∧
      (keywordClassify text sd).confidence ≤ 1 ∧
      (keywordClassify text sd).category ∈ ((keywordClassify text sd).scores).map Prod.fst := by
  refine ⟨by decide, ?_⟩
  intro text sd
  have hscores : (keywordClassify text sd).scores = kcScores text sd := rfl
  have hcat : (keywordClassify text sd).category = (scoreLoop (kcScores text sd)).1 := rfl
  refine ⟨?_, ?_, kcConf_pos text sd, kcConf_le_one text sd, ?_⟩
  · rw [hscores]
    exact tableTotal_pos (kcScores_good text sd)
  · rw [hscores]
    exact kcConf_eq text sd
  · rw [hscores, hcat]
    rcases scoreLoop_fst (kcScores text sd) with h | h
    · rw [h, (kcScores_good text sd).2.2]
      decide
    · exact h

/-! ## Claim C6 (confidence formula and the single-keyword scenario) -/

set_option maxRecDepth 400000 in
/-- Claim C6: the returned confidence always equals
`min(bestScore / max(totalScore * 0.5, 5), 1)` when `totalScore > 0` and
`0.1` otherwise; and for the text `"Rechnung"` — exactly one strong
keyword of the category `'rechnung'` and no other signal — that category
wins with score 3 (next to the `0.1` base score on `'other'`) and the
confidence is `3 / max(3.1 * 0.5, 5) = 0.6`, strictly between 0 and 1. -/
theorem keywordClassify_confidence_formula_and_scenario :
    (∀ (text : String) (sd : StructuredData),
      (keywordClassify text sd).confidence =
        (if 0 < tableTotal ((keywordClassify text sd).scores) then
          min (tableBest ((keywordClassify text sd).scores) /
                max (tableTotal ((keywordClassify text sd).scores) * (1 / 2 : ℚ)) 5) 1
         else Rat.divInt 1 10)) ∧
    (keywordClassify "Rechnung" ⟨[], [], none⟩).category = "rechnung" ∧
    ("rechnung", 3) ∈ (keywordClassify "Rechnung" ⟨[], [], none⟩).scores ∧
    ("other", Rat.divInt 1 10) ∈ (keywordClassify "Rechnung" ⟨[], [], none⟩).scores ∧
    (keywordClassify "Rechnung" ⟨[], [], none⟩).confidence = Rat.divInt 3 5 ∧
    0 < (keywordClassify "Rechnung" ⟨[], [], none⟩).confidence ∧
    (keywordClassify "Rechnung" ⟨[], [], none⟩).confidence < 1 := by
  refine ⟨?_, ?_, ?_, ?_, ?_, ?_, ?_⟩
  · intro text sd
    have hscores : (keywordClassify text sd).scores = kcScores text sd := rfl
    rw [hscores, if_pos (tableTotal_pos (kcScores_good text sd))]
    exact kcConf_eq text sd
  · decide
  · decide
  · decide
  · decide
  · decide
  · decide

/-! ## Dates (classifier.js `extractBestDate`)

JavaScript `Date` arithmetic is modelled exactly on the proleptic
Gregorian calendar (civil-from-days / days-from-civil), with local time
equal to UTC and times in integer milliseconds.  `new Date(y, m, d)`
normalises out-of-range month indices and days by rolling over, which the
model reproduces through integer arithmetic. -/

/-- Day number (days since 1970-01-01) of a civil date, months `1..12`;
the day may be any integer (JS day rollover is linear in `d`). -/
def daysFromCivil (y m d : ℤ) : ℤ :=
  let y2 := if m ≤ 2 then y - 1 else y
  let era := Int.fdiv y2 400
  let yoe := y2 - era * 400
  let mAdj := if 2 < m then m - 3 else m + 9
  let doy := Int.fdiv (153 * mAdj + 2) 5 + d - 1
  let doe := yoe * 365 + Int.fdiv yoe 4 - Int.fdiv yoe 100 + doy
  era * 146097 + doe - 719468

/-- Civil date `(y, m, d)` of a day number. -/
def civilFromDays (z0 : ℤ) : ℤ × ℤ × ℤ :=
  let z := z0 + 719468
  let era := Int.fdiv z 146097
  let doe := z - era * 146097
  let yoe := Int.fdiv (doe - Int.fdiv doe 1460 + Int.fdiv doe 36524 - Int.fdiv doe 146096) 365
  let y := yoe + era * 400
  let doy := doe - (365 * yoe + Int.fdiv yoe 4 - Int.fdiv yoe 100)
  let mp := Int.fdiv (5 * doy + 2) 153
  let d := doy - Int.fdiv (153 * mp + 2) 5 + 1
  let m := if mp < 10 then mp + 3 else mp - 9
  (if m ≤ 2 then y + 1 else y, m, d)

def msPerDay : ℤ := 86400000

/-- `new Date(year, monthIndex, day).getTime()`: the constructor maps
years 0–99 to 1900+year, rolls over out-of-range month indices and days,
and the resulting timestamp is midnight of the civil date. -/
def jsDateMs (year monthIndex day : ℤ) : ℤ :=
  let year2 := if 0 ≤ year ∧ year ≤ 99 then year + 1900 else year
  let tm := year2 * 12 + monthIndex
  let y := Int.fdiv tm 12
  let m := Int.emod tm 12 + 1
  daysFromCivil y m day * msPerDay

/-- Numeric value of a digit character. -/
def digitVal (c : Char) : ℕ := c.toNat - 48

/-- Matcher for `\d{1,2}\.`: greedily two digits followed by a dot, else
one digit followed by a dot (deterministic, since `.` is not a digit).
Returns the numeric value and the rest of the input. -/
def matchD12Dot : List Char → Option (ℕ × List Char)
  | a :: b :: rest =>
      if a.isDigit then
        if b.isDigit then
          match rest with
          | '.' :: r2 => some (digitVal a * 10 + digitVal b, r2)
          | _ => none
        else if b = '.' then some (digitVal a, rest)
        else none
      else none
  | _ => none

/-- Matcher for a trailing `\d{2,4}`: greedily up to four leading digits,
at least two (nothing follows this group in the pattern). -/
def matchYear24 : List Char → Option ℕ
  | a :: b :: rest =>
      if a.isDigit ∧ b.isDigit then
        match rest with
        | c :: rest2 =>
            if c.isDigit then
              match rest2 with
              | e :: _ =>
                  if e.isDigit then
                    some (((digitVal a * 10 + digitVal b) * 10 + digitVal c) * 10 + digitVal e)
                  else some ((digitVal a * 10 + digitVal b) * 10 + digitVal c)
              | [] => some ((digitVal a * 10 + digitVal b) * 10 + digitVal c)
            else some (digitVal a * 10 + digitVal b)
        | [] => some (digitVal a * 10 + digitVal b)
      else none
  | _ => none

/-- Match `(\d{1,2})\.(\d{1,2})\.(\d{2,4})` at the current position,
returning the three captured numbers `(day, month, year)`. -/
def matchDMYAt (cs : List Char) : Option (ℕ × ℕ × ℕ) :=
  match matchD12Dot cs with
  | none => none
  | some (d, r1) =>
      match matchD12Dot r1 with
      | none => none
      | some (m, r2) =>
          match matchYear24 r2 with
          | none => none
          | some y => some (d, m, y)

/-- `dateStr.match(/(\d{1,2})\.(\d{1,2})\.(\d{2,4})/)`: the first match in
left-to-right scan order, as the captured `(day, month, year)`. -/
def dateMatchFirst : List Char → Option (ℕ × ℕ × ℕ)
  | [] => none
  | c :: t =>
      match matchDMYAt (c :: t) with
      | some r => some r
      | none => dateMatchFirst t

def digitChar (n : ℕ) : Char := Char.ofNat (48 + n)

/-- Fuel-driven decimal printer (the fuel only bounds recursion depth). -/
def natToStrAux : ℕ → ℕ → List Char
  | 0, _ => []
  | fuel + 1, n =>
      if n < 10 then [digitChar n]
      else natToStrAux fuel (n / 10) ++ [digitChar (n % 10)]

def natToStr (n : ℕ) : String := String.mk (natToStrAux (n + 1) n)

def pad2 (n : ℕ) : String := if n < 10 then "0" ++ natToStr n else natToStr n

def pad4 (n : ℕ) : String :=
  if n < 10 then "000" ++ natToStr n
  else if n < 100 then "00" ++ natToStr n
  else if n < 1000 then "0" ++ natToStr n
  else natToStr n

/-- `date.toISOString().split('T')[0]` for a midnight timestamp (years
0–9999, as produced by the date parser). -/
def isoOfMs (ms : ℤ) : String :=
  let c := civilFromDays (Int.fdiv ms msPerDay)
  pad4 c.1.toNat ++ "-" ++ pad2 c.2.1.toNat ++ "-" ++ pad2 c.2.2.toNat

/-- The source's two-digit-year pivot:
`if (year < 100) year += year > 50 ? 1900 : 2000` — note year 50 gets 2050. -/
def jsPivotYear (y : ℕ) : ℕ :=
  if y < 100 then (if 50 < y then y + 1900 else y + 2000) else y

/-- Modelled from the spec: the pivot rule as the claim states it —
"year < 50 ⇒ 2000s, else 1900s" — so year 50 gets 1950.  Used only to
compare the claim's wording against the code. -/
def specPivotYear (y : ℕ) : ℕ :=
  if y < 100 then (if y < 50 then y + 2000 else y + 1900) else y

/-- The amended pivot rule: "year ≤ 50 ⇒ 2000s, year > 50 ⇒ 1900s". -/
def amendedPivotYear (y : ℕ) : ℕ :=
  if y < 100 then (if y ≤ 50 then y + 2000 else y + 1900) else y

/-- Embedding of `extractBestDate` (classifier.js), parameterised by the
two-digit-year pivot so that the code's rule and the claim's rule can be
compared: parse each candidate with the `DD.MM.YY(YY)` regex, normalise
the year, build the date, and keep the candidate with the smallest
`|today - parsed|` among those strictly inside the two-year window
(`2 * 365` days in milliseconds); `none` when no candidate qualifies.
The selected date is returned in ISO `YYYY-MM-DD` form, as the source
does via `toISOString`. -/
def extractBestDateCore (pivot : ℕ → ℕ) (dates : List String) (todayMs : ℤ) :
    Option String :=
  let twoYears : ℤ := 2 * 365 * 24 * 60 * 60 * 1000
  let best := dates.foldl
    (fun (best : Option (ℤ × ℤ)) (dateStr : String) =>
      match dateMatchFirst dateStr.data with
      | none => best
      | some (d, mo, y0) =>
          let y := pivot y0
          let ms := jsDateMs (y : ℤ) ((mo : ℤ) - 1) (d : ℤ)
          let diff := if todayMs - ms < 0 then ms - todayMs else todayMs - ms
          let belowBest : Bool := match best with
            | none => true
            | some bd => decide (diff < bd.1)
          if diff < twoYears ∧ belowBest = true then some (diff, ms)
          else best)
    none
  match best with
  | none => none
  | some bd => some (isoOfMs bd.2)

/-- `extractBestDate` as the source implements it. -/
def extractBestDate (dates : List String) (todayMs : ℤ) : Option String :=
  extractBestDateCore jsPivotYear dates todayMs

/-- `extractBestDate` as Claim C9's words describe it (pivot `year < 50`). -/
def extractBestDateClaim (dates : List String) (todayMs : ℤ) : Option String :=
  extractBestDateCore specPivotYear dates todayMs

/-- `extractBestDate` under the amended pivot (`year ≤ 50`). -/
def extractBestDateAmended (dates : List String) (todayMs : ℤ) : Option String :=
  extractBestDateCore amendedPivotYear dates todayMs

/-! ## Claim C9 (best-date selection) -/

/-- Counterexample to Claim C9's pivot rule: the claim says "year < 50 ⇒
2000s, otherwise the 1900s", but the source computes
`year += year > 50 ? 1900 : 2000`, so the boundary year 50 becomes 2050,
not 1950.  With today = 2051-06-01 the candidate `"01.06.50"` is inside
the two-year window for the code (2050-06-01) and selected, while the
claim's rule (1950-06-01) would reject it. -/
theorem extractBestDate_pivot50_mismatch :
    extractBestDate ["01.06.50"] (jsDateMs 2051 5 1) = some "2050-06-01" ∧
    extractBestDateClaim ["01.06.50"] (jsDateMs 2051 5 1) = none ∧
    extractBestDate ["01.06.50"] (jsDateMs 2051 5 1) ≠
      extractBestDateClaim ["01.06.50"] (jsDateMs 2051 5 1) := by
  refine ⟨by decide, by decide, by decide⟩

/-- Claim C9, amended (pivot "year ≤ 50 ⇒ 2000s, year > 50 ⇒ 1900s"):
the selection equals the amended description on every input; and in the
claim's scenario — today 2026-03-15, one candidate 10 days away and one 3
years away — the 10-day candidate is selected while the 3-year candidate
alone would yield `none` (outside the two-year window). -/
theorem extractBestDate_amended_spec :
    (∀ (dates : List String) (todayMs : ℤ),
      extractBestDate dates todayMs = extractBestDateAmended dates todayMs) ∧
    extractBestDate ["25.03.2026", "15.03.2029"] (jsDateMs 2026 2 15) =
      some "2026-03-25" ∧
    extractBestDate ["15.03.2029"] (jsDateMs 2026 2 15) = none := by
  refine ⟨?_, by decide, by decide⟩
  intro dates todayMs
  have hp : jsPivotYear = amendedPivotYear := by
    funext y
    rw [jsPivotYear, amendedPivotYear]
    by_cases h1 : y < 100
    · rw [if_pos h1, if_pos h1]
      by_cases h2 : 50 < y
      · rw [if_pos h2, if_neg (by omega)]
      · rw [if_neg h2, if_pos (by omega)]
    · rw [if_neg h1, if_neg h1]
  rw [extractBestDate, extractBestDateAmended, hp]

/-! ## ML refinement and the classification driver (classifier.js) -/

/-- The outcome of one call to the zero-shot backend
(`this.pipeline(truncatedText, candidateLabels, ...)`): either the
top-ranked label with its score, or a thrown error. -/
inductive MLRaw where
  | ok (topLabel : String) (topScore : ℚ)
  | err
deriving DecidableEq

/-- `{category, confidence, method}` of an ML classification (the
`allScores` diagnostic array is not read by any caller or claim and is
omitted). -/
structure MLResult where
  category : String
  confidence : ℚ
  method : String
deriving DecidableEq

/-- The zero-shot label phrases (final revision). -/
def candidateLabels : List String :=
  ["Rechnung oder Zahlungsaufforderung",
   "Gehaltsabrechnung oder Lohnzettel",
   "Steuerdokument oder Finanzamt",
   "Versicherungsdokument",
   "Medizinisches Dokument oder Arztbrief",
   "Bankdokument oder Kontoauszug",
   "Vertrag oder Vereinbarung"]

/-- The positionally corresponding category ids (final revision). -/
def categoryMap : List String :=
  ["rechnung", "fin-gehalt", "fin-steuer",
   "vers-haftpflicht", "medizin", "fin-dkb", "vertrag-strom"]

/-- Embedding of `mlClassify`: no pipeline yields the `'ml-unavailable'`
zero-confidence result; a thrown backend error is caught and yields the
`'ml-error'` zero-confidence result; otherwise the text is truncated to
1000 characters, submitted, and the winning label is mapped back to a
category id by its position (`indexOf` on `candidateLabels`), defaulting
to `'other'`. -/
def mlClassify (pipeline : Option (String → MLRaw)) (text : String) : MLResult :=
  match pipeline with
  | none => ⟨"other", 0, "ml-unavailable"⟩
  | some p =>
      match p (text.take 1000) with
      | .err => ⟨"other", 0, "ml-error"⟩
      | .ok topLabel topScore =>
          match candidateLabels.findIdx? (fun l => l == topLabel) with
          | some i => ⟨categoryMap.getD i "other", topScore, "ml"⟩
          | none => ⟨"other", topScore, "ml"⟩

/-- The classification returned by `classify` (the display `name` built by
`generateDocumentName` is presentation-only string formatting read by no
claim and is omitted). -/
structure ClassifyOutcome where
  category : String
  confidence : ℚ
  method : String
  date : Option String
  amount : Option String
  sender : Option String
deriving DecidableEq

/-- Embedding of `classify` (classifier.js): keyword classification first;
ML refinement is attempted only when the keyword confidence is strictly
below 0.6 and an ML backend is both configured (`useMLModel`) and loaded
(`pipeline` non-null); the ML result replaces the keyword result only when
its confidence strictly exceeds the keyword one.  The result is enriched
with the best date, first amount and sender.  The function is total: every
input yields a `ClassifyOutcome`. -/
def classify (text : String) (sd : StructuredData) (useMLModel : Bool)
    (pipeline : Option (String → MLRaw)) (todayMs : ℤ) : ClassifyOutcome :=
  let kw := keywordClassify text sd
  let sel :=
    if kw.confidence < Rat.divInt 6 10 ∧ useMLModel = true ∧ pipeline.isSome = true then
      let ml := mlClassify pipeline text
      if kw.confidence < ml.confidence then (ml.category, ml.confidence, ml.method)
      else (kw.category, kw.confidence, kw.method)
    else (kw.category, kw.confidence, kw.method)
  ⟨sel.1, sel.2.1, sel.2.2, extractBestDate sd.dates todayMs, sd.amounts.head?, sd.sender⟩

/-! ## Claim C7 (ML refinement policy) -/

/-- Claim C7: (i) ML refinement is attempted only when the keyword
confidence is strictly below 0.6 and the ML backend is configured and
loaded — otherwise the keyword result is returned with method
`"keyword"`; (ii) when an attempt happens, the ML result replaces the
keyword one exactly when its confidence strictly exceeds the keyword
confidence; (iii) a backend runtime failure (caught and turned into the
zero-confidence `'ml-error'` result, which never exceeds the
always-positive keyword confidence) leaves the keyword result as the
returned classification.  `classify` itself is a total function — the
only backend failure path is caught inside `mlClassify`. -/
theorem classify_ml_refinement_policy
    (text : String) (sd : StructuredData) (useMLModel : Bool)
    (pipeline : Option (String → MLRaw)) (todayMs : ℤ) :
    ((Rat.divInt 6 10 ≤ (keywordClassify text sd).confidence ∨ useMLModel = false ∨
        pipeline = none) →
      (classify text sd useMLModel pipeline todayMs).category =
          (keywordClassify text sd).category ∧
        (classify text sd useMLModel pipeline todayMs).confidence =
          (keywordClassify text sd).confidence ∧
        (classify text sd useMLModel pipeline todayMs).method = "keyword") ∧
    (((keywordClassify text sd).confidence < Rat.divInt 6 10 ∧ useMLModel = true ∧
        pipeline.isSome = true) →
      (classify text sd useMLModel pipeline todayMs).category =
          (if (keywordClassify text sd).confidence <
              (mlClassify pipeline text).confidence then
            (mlClassify pipeline text).category
           else (keywordClassify text sd).category) ∧
        (classify text sd useMLModel pipeline todayMs).confidence =
          (if (keywordClassify text sd).confidence <
              (mlClassify pipeline text).confidence then
            (mlClassify pipeline text).confidence
           else (keywordClassify text sd).confidence)) ∧
    (∀ p, pipeline = some p → p (text.take 1000) = .err →
      (classify text sd useMLModel pipeline todayMs).category =
          (keywordClassify text sd).category ∧
        (classify text sd useMLModel pipeline todayMs).confidence =
          (keywordClassify text sd).confidence ∧
        (classify text sd useMLModel pipeline todayMs).method = "keyword") := by
  refine ⟨?_, ?_, ?_⟩
  · intro h
    have hcond : ¬((keywordClassify text sd).confidence < Rat.divInt 6 10 ∧
        useMLModel = true ∧ pipeline.isSome = true) := by
      rcases h with h | h | h
      · exact fun hc => absurd hc.1 (not_lt.mpr h)
      · exact fun hc => by rw [h] at hc; cases hc.2.1
      · exact fun hc => by rw [h] at hc; cases hc.2.2
    simp only [classify, if_neg hcond]
    refine ⟨?_, ?_, ?_⟩ <;> trivial
  · intro hcond
    simp only [classify, if_pos hcond]
    by_cases hcmp : (keywordClassify text sd).confidence <
        (mlClassify pipeline text).confidence
    · rw [if_pos hcmp, if_pos hcmp, if_pos hcmp]
      refine ⟨?_, ?_⟩ <;> trivial
    · rw [if_neg hcmp, if_neg hcmp, if_neg hcmp]
      refine ⟨?_, ?_⟩ <;> trivial
  · intro p hp herr
    have hml : mlClassify pipeline text = ⟨"other", 0, "ml-error"⟩ := by
      rw [hp, mlClassify, herr]
    by_cases hcond : (keywordClassify text sd).confidence < Rat.divInt 6 10 ∧
        useMLModel = true ∧ pipeline.isSome = true
    · have hnogain : ¬((keywordClassify text sd).confidence <
          (mlClassify pipeline text).confidence) := by
        rw [hml]
        exact not_lt.mpr (kcConf_pos text sd).le
      simp only [classify, if_pos hcond, if_neg hnogain]
      refine ⟨?_, ?_, ?_⟩ <;> trivial
    · simp only [classify, if_neg hcond]
      refine ⟨?_, ?_, ?_⟩ <;> trivial

set_option maxRecDepth 400000 in
/-- Witness for C7: a loaded backend that always throws leaves the keyword
result (`'rechnung'`, confidence 0.6, method `"keyword"`) untouched. -/
theorem classify_ml_refinement_policy_witness :
    (classify "Rechnung" ⟨[], [], none⟩ true (some fun _ => MLRaw.err) 0).category =
        (keywordClassify "Rechnung" ⟨[], [], none⟩).category ∧
      (classify "Rechnung" ⟨[], [], none⟩ true (some fun _ => MLRaw.err) 0).confidence =
        (keywordClassify "Rechnung" ⟨[], [], none⟩).confidence ∧
      (classify "Rechnung" ⟨[], [], none⟩ true (some fun _ => MLRaw.err) 0).method =
        "keyword" :=
  (classify_ml_refinement_policy "Rechnung" ⟨[], [], none⟩ true
      (some fun _ => MLRaw.err) 0).2.2 (fun _ => MLRaw.err) rfl rfl

/-! ## Structured-data extraction (ocrService.js): dates and amounts

Each regex used by `extractStructuredData` is embedded as a matcher
returning the length of the match at the current position (or `none`),
and `String.prototype.matchAll` as a left-to-right scan that records each
match and resumes after it.  The matchers reproduce the greedy,
backtracking regex semantics; where a quantifier is followed by a literal
that cannot extend it (e.g. `\d{1,2}` before `\.`), the backtracking is
resolved statically. -/

/-- Length-returning matcher for `\d{1,2}\.`. -/
def matchD12DotLen : List Char → Option (ℕ × List Char)
  | a :: b :: rest =>
      if a.isDigit then
        if b.isDigit then
          match rest with
          | '.' :: r2 => some (3, r2)
          | _ => none
        else if b = '.' then some (2, rest)
        else none
      else none
  | _ => none

/-- Consume exactly `k` digits. -/
def dropDigits : ℕ → List Char → Option (List Char)
  | 0, cs => some cs
  | _ + 1, [] => none
  | k + 1, c :: cs => if c.isDigit then dropDigits k cs else none

/-- Matcher for `(\d{1,2})\.(\d{1,2})\.(\d{4})` (match length). -/
def matchDate4At (cs : List Char) : Option ℕ :=
  match matchD12DotLen cs with
  | none => none
  | some (l1, r1) =>
      match matchD12DotLen r1 with
      | none => none
      | some (l2, r2) =>
          match dropDigits 4 r2 with
          | some _ => some (l1 + l2 + 4)
          | none => none

/-- Matcher for `(\d{1,2})\.(\d{1,2})\.(\d{2})` (match length). -/
def matchDate2At (cs : List Char) : Option ℕ :=
  match matchD12DotLen cs with
  | none => none
  | some (l1, r1) =>
      match matchD12DotLen r1 with
      | none => none
      | some (l2, r2) =>
          match dropDigits 2 r2 with
          | some _ => some (l1 + l2 + 2)
          | none => none

/-- Matcher for `(\d{4})-(\d{2})-(\d{2})` (match length). -/
def matchIsoAt (cs : List Char) : Option ℕ :=
  match dropDigits 4 cs with
  | some ('-' :: r1) =>
      match dropDigits 2 r1 with
      | some ('-' :: r2) =>
          match dropDigits 2 r2 with
          | some _ => some 10
          | none => none
      | _ => none
  | _ => none

/-- The German month names of the fourth date pattern, in source order
(none is a case-insensitive prefix of another, so ordered first-match
needs no backtracking). -/
def monthNames : List String :=
  ["Januar", "Februar", "März", "April", "Mai", "Juni", "Juli", "August",
   "September", "Oktober", "November", "Dezember"]

/-- Case-insensitive prefix match, returning the rest of the input. -/
def ciPrefixRest : List Char → List Char → Option (List Char)
  | [], cs => some cs
  | _ :: _, [] => none
  | p :: ps, c :: cs => if lowerChar c = lowerChar p then ciPrefixRest ps cs else none

/-- Ordered first case-insensitive month-name match. -/
def tryMonths : List String → List Char → Option (ℕ × List Char)
  | [], _ => none
  | m :: rest, cs =>
      match ciPrefixRest m.data cs with
      | some r => some (m.data.length, r)
      | none => tryMonths rest cs

/-- The whitespace class `\s` (the characters occurring in this model). -/
def isSpaceChar (c : Char) : Bool := c = ' ' ∨ c = '\t' ∨ c = '\n' ∨ c = '\r'

/-- Greedy `\s*`: number of spaces consumed and the rest. -/
def dropSpaces : List Char → ℕ × List Char
  | [] => (0, [])
  | c :: cs =>
      if isSpaceChar c then
        let r := dropSpaces cs
        (r.1 + 1, r.2)
      else (0, c :: cs)

/-- Matcher for `(\d{1,2})\.\s*(Januar|…|Dezember)\s*(\d{4})`, flags `gi`
(match length). -/
def matchDateMonthAt (cs : List Char) : Option ℕ :=
  match matchD12DotLen cs with
  | none => none
  | some (l1, r1) =>
      let s1 := dropSpaces r1
      match tryMonths monthNames s1.2 with
      | none => none
      | some (lm, r3) =>
          let s2 := dropSpaces r3
          match dropDigits 4 s2.2 with
          | some _ => some (l1 + s1.1 + lm + s2.1 + 4)
          | none => none

/-- Tail of the currency alternation `(?:€|EUR|Euro)` after `\s*`,
case-insensitive and in source order (`EUR` matching makes `Euro`
unreachable as its prefix). -/
def matchCurrency (cs : List Char) (len : ℕ) : Option ℕ :=
  let s := dropSpaces cs
  match s.2 with
  | '€' :: _ => some (len + s.1 + 1)
  | a :: b :: c :: _ =>
      if lowerChar a = 'e' ∧ lowerChar b = 'u' ∧ lowerChar c = 'r' then
        some (len + s.1 + 3)
      else none
  | _ => none

/-- Optional `(,\d{2})?` (greedy: with the group first, then without),
then `\s*` and the currency. -/
def matchAmountEnd (cs : List Char) (len : ℕ) : Option ℕ :=
  (match cs with
   | ',' :: d1 :: d2 :: rest =>
       if d1.isDigit ∧ d2.isDigit then matchCurrency rest (len + 3) else none
   | _ => none).orElse
  (fun _ => matchCurrency cs len)

/-- Greedy `(?:\.\d{3})*` with backtracking (try one more group first,
else end the quantifier here), then `matchAmountEnd`. -/
def matchAmountTail : List Char → ℕ → Option ℕ
  | '.' :: d1 :: d2 :: d3 :: rest, len =>
      if d1.isDigit ∧ d2.isDigit ∧ d3.isDigit then
        (matchAmountTail rest (len + 4)).orElse
          (fun _ => matchAmountEnd ('.' :: d1 :: d2 :: d3 :: rest) len)
      else matchAmountEnd ('.' :: d1 :: d2 :: d3 :: rest) len
  | cs, len => matchAmountEnd cs len

/-- Matcher for `(\d{1,3}(?:\.\d{3})*(?:,\d{2})?)\s*(?:€|EUR|Euro)`,
flags `gi`: greedy `\d{1,3}` with backtracking over 3, 2, 1 digits. -/
def matchAmountAt : List Char → Option ℕ
  | [] => none
  | a :: rest1 =>
      if a.isDigit then
        match rest1 with
        | [] => matchAmountTail rest1 1
        | b :: rest2 =>
            if b.isDigit then
              match rest2 with
              | [] => (matchAmountTail rest2 2).orElse (fun _ => matchAmountTail rest1 1)
              | c :: rest3 =>
                  if c.isDigit then
                    (matchAmountTail rest3 3).orElse (fun _ =>
                      (matchAmountTail rest2 2).orElse (fun _ => matchAmountTail rest1 1))
                  else (matchAmountTail rest2 2).orElse (fun _ => matchAmountTail rest1 1)
            else matchAmountTail rest1 1
      else none

/-- `text.matchAll(pattern)` for a length-returning matcher: scan left to
right, record each match and resume immediately after it (advancing at
least one position, as the JS iterator does on empty matches; every
matcher here consumes at least one character). -/
def scanAll (m : List Char → Option ℕ) : ℕ → List Char → List (List Char)
  | 0, _ => []
  | fuel + 1, cs =>
      match cs with
      | [] => []
      | c :: t =>
          match m (c :: t) with
          | some len => (c :: t).take len :: scanAll m fuel ((c :: t).drop (max len 1))
          | none => scanAll m fuel t

def jsMatchAll (m : List Char → Option ℕ) (text : String) : List String :=
  (scanAll m text.data.length text.data).map String.mk

/-- Embedding of the date-collection part of `extractStructuredData`
(ocrService.js): run the four patterns in order over the whole text and
append all raw matches. -/
def extractDates (text : String) : List String :=
  jsMatchAll matchDate4At text ++ jsMatchAll matchDate2At text ++
  jsMatchAll matchIsoAt text ++ jsMatchAll matchDateMonthAt text

/-- Embedding of the amount-collection part of `extractStructuredData`
(ocrService.js). -/
def extractAmounts (text : String) : List String :=
  jsMatchAll matchAmountAt text

/-! ## Claim C8 (the extraction test vector) -/

/-- Counterexample to Claim C8 as stated: on
`"Rechnung vom 15.03.2024 über 1.234,56 €"` the collected dates are not
the one-element sequence `["15.03.2024"]` — the `DD.MM.YY` pattern also
matches the first eight characters `"15.03.20"` of the same date, and all
raw matches of all four patterns are appended. -/
theorem extractDates_example_not_singleton :
    extractDates "Rechnung vom 15.03.2024 über 1.234,56 €" ≠ ["15.03.2024"] := by decide

/-- Claim C8, amended: the example text yields
`dates = ["15.03.2024", "15.03.20"]` (the `DD.MM.YYYY` match followed by
the `DD.MM.YY` pattern's match of its first eight characters) and
`amounts = ["1.234,56 €"]` exactly. -/
theorem extractStructuredData_example_vector :
    extractDates "Rechnung vom 15.03.2024 über 1.234,56 €" =
      ["15.03.2024", "15.03.20"] ∧
    extractAmounts "Rechnung vom 15.03.2024 über 1.234,56 €" = ["1.234,56 €"] := by
  refine ⟨by decide, by decide⟩

/-! ## Geometry for Claim C5: segments, orientation, simple quadrilaterals -/

/-- Vector difference of two points. -/
def psub (p c : Pt) : Pt := ⟨p.x - c.x, p.y - c.y⟩

/-- Cross product with standard operations (proof-side twin of `cross`). -/
def crossV (u v : Pt) : ℚ := u.x * v.y - u.y * v.x

theorem cross_eq_crossV (u v : Pt) : cross u v = crossV u v := by
  rw [cross, crossV, qsub_eq, qmul_eq, qmul_eq]

/-- Orientation of the point triple `(A, B, C)`: positive when `C` lies to
one side of the directed line `A → B`, negative on the other, zero iff the
three points are collinear. -/
def orient (A B C : Pt) : ℚ := crossV (psub B A) (psub C A)

/-- Kernel-computable twin of `orient` (same value). -/
def orientC (A B C : Pt) : ℚ :=
  cross ⟨qsub B.x A.x, qsub B.y A.y⟩ ⟨qsub C.x A.x, qsub C.y A.y⟩

theorem orientC_eq (A B C : Pt) : orientC A B C = orient A B C := by
  rw [orientC, cross_eq_crossV, orient, psub, psub, qsub_eq, qsub_eq, qsub_eq, qsub_eq]

/-- Membership of `p` on the closed segment from `A` to `B`. -/
def onSeg (A B p : Pt) : Prop :=
  ∃ t : ℚ, 0 ≤ t ∧ t ≤ 1 ∧ p.x = A.x + t * (B.x - A.x) ∧ p.y = A.y + t * (B.y - A.y)

theorem onSeg_symm {A B p : Pt} (h : onSeg A B p) : onSeg B A p := by
  obtain ⟨t, h0, h1, hx, hy⟩ := h
  exact ⟨1 - t, by linarith, by linarith, by rw [hx]; ring, by rw [hy]; ring⟩

theorem onSeg_left (A B : Pt) : onSeg A B A :=
  ⟨0, le_refl 0, by norm_num, by ring, by ring⟩

theorem onSeg_right (A B : Pt) : onSeg A B B :=
  ⟨1, by norm_num, le_refl 1, by ring, by ring⟩

/-- A point of the segment `AB` is on the line `AB`. -/
theorem orient_of_onSeg {A B p : Pt} (h : onSeg A B p) : orient A B p = 0 := by
  obtain ⟨t, _, _, hx, hy⟩ := h
  rw [orient, crossV, psub, psub]
  dsimp only
  rw [hx, hy]
  ring

/-- `orient A B ·` is affine along a segment `CD`. -/
theorem orient_affine {C D p : Pt} (A B : Pt) (h : onSeg C D p) :
    ∃ t : ℚ, 0 ≤ t ∧ t ≤ 1 ∧
      orient A B p = (1 - t) * orient A B C + t * orient A B D := by
  obtain ⟨t, h0, h1, hx, hy⟩ := h
  refine ⟨t, h0, h1, ?_⟩
  rw [orient, orient, orient, crossV, crossV, crossV, psub, psub, psub, psub]
  dsimp only
  rw [hx, hy]
  ring

/-- Two segments cannot meet when both endpoints of one lie strictly on
the same side of the other's line. -/
theorem disjoint_of_sameSide {A B C D : Pt}
    (h : 0 < orient A B C * orient A B D) :
    ∀ p, onSeg A B p → onSeg C D p → False := by
  intro p hAB hCD
  obtain ⟨t, h0, h1, hp⟩ := orient_affine A B hCD
  have hz : orient A B p = 0 := orient_of_onSeg hAB
  rw [hz] at hp
  rcases mul_pos_iff.mp h with ⟨hC, hD⟩ | ⟨hC, hD⟩
  · rcases eq_or_lt_of_le h0 with ht | ht
    · rw [← ht] at hp
      simp only [sub_zero, one_mul, zero_mul, add_zero] at hp
      linarith
    · have h2 : 0 < t * orient A B D := mul_pos ht hD
      have h3 : 0 ≤ (1 - t) * orient A B C := mul_nonneg (by linarith) hC.le
      linarith
  · rcases eq_or_lt_of_le h0 with ht | ht
    · rw [← ht] at hp
      simp only [sub_zero, one_mul, zero_mul, add_zero] at hp
      linarith
    · have h2 : t * orient A B D < 0 := mul_neg_of_pos_of_neg ht hD
      have h3 : (1 - t) * orient A B C ≤ 0 :=
        mul_nonpos_iff.mpr (Or.inl ⟨by linarith, hC.le⟩)
      linarith

/-- Two segments sharing the endpoint `B` meet only at `B`, provided the
three endpoints are not collinear. -/
theorem adjacent_only_at_shared {A B C : Pt} (h : orient A B C ≠ 0) :
    ∀ p, onSeg A B p → onSeg B C p → p = B := by
  intro p hAB hBC
  obtain ⟨t, _, _, hx1, hy1⟩ := hAB
  obtain ⟨s, _, _, hx2, hy2⟩ := hBC
  have key : s * orient A B C = 0 := by
    rw [orient, crossV, psub, psub]
    dsimp only
    have ex : p.x - B.x = s * (C.x - B.x) := by rw [hx2]; ring
    have ey : p.y - B.y = s * (C.y - B.y) := by rw [hy2]; ring
    have ex2 : p.x - B.x = (t - 1) * (B.x - A.x) := by rw [hx1]; ring
    have ey2 : p.y - B.y = (t - 1) * (B.y - A.y) := by rw [hy1]; ring
    linear_combination (B.x - A.x) * ey2 - (B.x - A.x) * ey
      + (B.y - A.y) * ex - (B.y - A.y) * ex2
  have hs : s = 0 := by
    rcases mul_eq_zero.mp key with hs | hO
    · exact hs
    · exact absurd hO h
  rw [hs] at hx2 hy2
  have hx : p.x = B.x := by rw [hx2]; ring
  have hy : p.y = B.y := by rw [hy2]; ring
  cases p
  cases B
  simp only at hx hy
  rw [hx, hy]

/-- Proof-side (standard operations) version of the `angleLe` comparison
between two centred vectors. -/
def vA (u v : Pt) : Prop :=
  if angClass u ≠ angClass v then angClass u < angClass v
  else if angClass u = 0 ∨ angClass u = 2 then 0 ≤ crossV u v
  else True

theorem angleLe_iff_vA (c p q : Pt) : angleLe c p q = true ↔ vA (psub p c) (psub q c) := by
  have hu : (⟨qsub p.x c.x, qsub p.y c.y⟩ : Pt) = psub p c := by
    rw [psub, qsub_eq, qsub_eq]
  have hv : (⟨qsub q.x c.x, qsub q.y c.y⟩ : Pt) = psub q c := by
    rw [psub, qsub_eq, qsub_eq]
  rw [angleLe]
  simp only [hu, hv, vA, cross_eq_crossV]
  split_ifs with h1 h2
  · simp
  · simp
  · simp

theorem class_of_yneg {u : Pt} (h : u.y < 0) : angClass u = 0 := by
  rw [angClass, if_pos h]

theorem class_of_ypos {u : Pt} (h : 0 < u.y) : angClass u = 2 := by
  rw [angClass]
  split_ifs with h1 h2
  · linarith
  · obtain ⟨h2a, _⟩ := h2
    linarith
  · rfl

theorem yneg_of_class0 {u : Pt} (h : angClass u = 0) : u.y < 0 := by
  rw [angClass] at h
  split_ifs at h with h1 h2 h3
  exact h1

theorem class1_facts {u : Pt} (h : angClass u = 1) : u.y = 0 ∧ 0 ≤ u.x := by
  rw [angClass] at h
  split_ifs at h with h1 h2 h3
  all_goals first | exact h2 | omega

theorem ypos_of_class2 {u : Pt} (h : angClass u = 2) : 0 < u.y := by
  rw [angClass] at h
  split_ifs at h with h1 h2 h3
  all_goals first | exact h3 | omega

theorem class3_facts {u : Pt} (h : angClass u = 3) : u.y = 0 ∧ u.x < 0 := by
  rw [angClass] at h
  split_ifs at h with h1 h2 h3
  all_goals try omega
  push_neg at h1 h2 h3
  have hy : u.y = 0 := le_antisymm h3 h1
  exact ⟨hy, by linarith [h2 hy]⟩

theorem crossV_skew (u v : Pt) : crossV v u = -crossV u v := by
  rw [crossV, crossV]
  ring

theorem crossV_jacobi_y (u v w : Pt) :
    crossV u v * w.y - crossV u w * v.y + crossV v w * u.y = 0 := by
  rw [crossV, crossV, crossV]
  ring

theorem crossV_jacobi_x (u v w : Pt) :
    crossV u v * w.x - crossV u w * v.x + crossV v w * u.x = 0 := by
  rw [crossV, crossV, crossV]
  ring

theorem cross_trans_yneg {u v w : Pt} (hu : u.y < 0) (hv : v.y < 0) (hw : w.y < 0)
    (h1 : 0 ≤ crossV u v) (h2 : 0 ≤ crossV v w) : 0 ≤ crossV u w := by
  have hj := crossV_jacobi_y u v w
  nlinarith [mul_nonneg h1 (neg_nonneg.mpr hw.le), mul_nonneg h2 (neg_nonneg.mpr hu.le)]

theorem cross_trans_ypos {u v w : Pt} (hu : 0 < u.y) (hv : 0 < v.y) (hw : 0 < w.y)
    (h1 : 0 ≤ crossV u v) (h2 : 0 ≤ crossV v w) : 0 ≤ crossV u w := by
  have hj := crossV_jacobi_y u v w
  nlinarith [mul_nonneg h1 hw.le, mul_nonneg h2 hu.le]

theorem vA_total (u v : Pt) : vA u v ∨ vA v u := by
  rcases eq_or_ne (angClass u) (angClass v) with h | h
  · by_cases h02 : angClass u = 0 ∨ angClass u = 2
    · rcases le_total 0 (crossV u v) with hc | hc
      · left
        rw [vA, if_neg (by simp [h]), if_pos h02]
        exact hc
      · right
        rw [vA, if_neg (by simp [h.symm]), if_pos (h ▸ h02), crossV_skew]
        linarith
    · left
      rw [vA, if_neg (by simp [h]), if_neg h02]
      trivial
  · rcases Nat.lt_or_ge (angClass u) (angClass v) with hlt | hge
    · left
      rw [vA, if_pos h]
      exact hlt
    · right
      rw [vA, if_pos h.symm]
      omega

theorem vA_trans {u v w : Pt} (h1 : vA u v) (h2 : vA v w) : vA u w := by
  rcases eq_or_ne (angClass u) (angClass v) with e1 | n1
  · rcases eq_or_ne (angClass v) (angClass w) with e2 | n2
    · have e3 : angClass u = angClass w := e1.trans e2
      rw [vA, if_neg (by simp [e1])] at h1
      rw [vA, if_neg (by simp [e2])] at h2
      rw [vA, if_neg (by simp [e3])]
      by_cases h02 : angClass u = 0 ∨ angClass u = 2
      · rw [if_pos h02] at h1 ⊢
        rw [if_pos (e1 ▸ h02)] at h2
        have hvu : angClass v = angClass u := e1.symm
        have hwu : angClass w = angClass u := e3.symm
        rcases h02 with h0 | h0
        · exact cross_trans_yneg (yneg_of_class0 h0) (yneg_of_class0 (hvu.trans h0))
            (yneg_of_class0 (hwu.trans h0)) h1 h2
        · exact cross_trans_ypos (ypos_of_class2 h0) (ypos_of_class2 (hvu.trans h0))
            (ypos_of_class2 (hwu.trans h0)) h1 h2
      · rw [if_neg h02]
        trivial
    · have hlt : angClass v < angClass w := by rwa [vA, if_pos n2] at h2
      have hlt2 : angClass u < angClass w := e1 ▸ hlt
      rw [vA, if_pos (Nat.ne_of_lt hlt2)]
      exact hlt2
  · have hlt1 : angClass u < angClass v := by rwa [vA, if_pos n1] at h1
    have hle2 : angClass v ≤ angClass w := by
      rcases eq_or_ne (angClass v) (angClass w) with e2 | n2
      · exact e2.le
      · have hlt : angClass v < angClass w := by rwa [vA, if_pos n2] at h2
        exact Nat.le_of_lt hlt
    have hlt2 : angClass u < angClass w := lt_of_lt_of_le hlt1 hle2
    rw [vA, if_pos (Nat.ne_of_lt hlt2)]
    exact hlt2

theorem angleLe_total (c p q : Pt) : angleLe c p q = true ∨ angleLe c q p = true := by
  rw [angleLe_iff_vA, angleLe_iff_vA]
  exact vA_total _ _

theorem angleLe_trans {c p q r : Pt} (h1 : angleLe c p q = true)
    (h2 : angleLe c q r = true) : angleLe c p r = true := by
  rw [angleLe_iff_vA] at h1 h2 ⊢
  exact vA_trans h1 h2

/-! ### Insertion sort: permutation and sortedness -/

theorem insertSorted_perm (le : Pt → Pt → Bool) (a : Pt) :
    ∀ l, (insertSorted le a l).Perm (a :: l) := by
  intro l
  induction l with
  | nil => exact List.Perm.refl _
  | cons b t ih =>
    by_cases h : le a b = true
    · rw [insertSorted, if_pos h]
    · rw [insertSorted, if_neg h]
      exact (ih.cons b).trans (List.Perm.swap a b t)

theorem sortByAngle_perm (le : Pt → Pt → Bool) (l : List Pt) :
    (sortByAngle le l).Perm l := by
  induction l with
  | nil => exact List.Perm.refl _
  | cons a t ih =>
    have : sortByAngle le (a :: t) = insertSorted le a (sortByAngle le t) := rfl
    rw [this]
    exact (insertSorted_perm le a (sortByAngle le t)).trans (ih.cons a)

theorem pairwise_insertSorted (le : Pt → Pt → Bool)
    (htot : ∀ p q, le p q = true ∨ le q p = true)
    (htr : ∀ p q r, le p q = true → le q r = true → le p r = true) (a : Pt) :
    ∀ l, List.Pairwise (fun p q => le p q = true) l →
      List.Pairwise (fun p q => le p q = true) (insertSorted le a l) := by
  intro l
  induction l with
  | nil =>
    intro _
    exact List.pairwise_singleton _ a
  | cons b t ih =>
    intro h
    rw [List.pairwise_cons] at h
    obtain ⟨hb, ht⟩ := h
    by_cases hab : le a b = true
    · rw [insertSorted, if_pos hab]
      refine List.Pairwise.cons ?_ (List.Pairwise.cons hb ht)
      intro x hx
      rcases List.mem_cons.mp hx with hx | hx
      · rw [hx]
        exact hab
      · exact htr a b x hab (hb x hx)
    · rw [insertSorted, if_neg hab]
      have hba : le b a = true := (htot a b).resolve_left hab
      refine List.Pairwise.cons ?_ (ih ht)
      intro x hx
      have hx2 : x ∈ a :: t := (insertSorted_perm le a t).mem_iff.mp hx
      rcases List.mem_cons.mp hx2 with hx2 | hx2
      · rw [hx2]
        exact hba
      · exact hb x hx2

theorem pairwise_sortByAngle (le : Pt → Pt → Bool)
    (htot : ∀ p q, le p q = true ∨ le q p = true)
    (htr : ∀ p q r, le p q = true → le q r = true → le p r = true) (l : List Pt) :
    List.Pairwise (fun p q => le p q = true) (sortByAngle le l) := by
  induction l with
  | nil => exact List.Pairwise.nil
  | cons a t ih =>
    have : sortByAngle le (a :: t) = insertSorted le a (sortByAngle le t) := rfl
    rw [this]
    exact pairwise_insertSorted le htot htr a _ ih

/-! ### The rotation step: the head of the rotated list minimises `x + y` -/

theorem minSum_rot_head (s0 s1 s2 s3 : Pt) :
    ∃ t0 t1 t2 t3 : Pt,
      rotateL [s0, s1, s2, s3] (minSumIdx [s0, s1, s2, s3]) = [t0, t1, t2, t3] ∧
      ([t0, t1, t2, t3] = [s0, s1, s2, s3] ∨ [t0, t1, t2, t3] = [s1, s2, s3, s0] ∨
       [t0, t1, t2, t3] = [s2, s3, s0, s1] ∨ [t0, t1, t2, t3] = [s3, s0, s1, s2]) ∧
      ∀ p ∈ [s0, s1, s2, s3], t0.x + t0.y ≤ p.x + p.y := by
  by_cases h1 : s1.x + s1.y < s0.x + s0.y
  · by_cases h2 : s2.x + s2.y < s1.x + s1.y
    · by_cases h3 : s3.x + s3.y < s2.x + s2.y
      · have hk : minSumIdx [s0, s1, s2, s3] = 3 := by
          simp [minSumIdx, minSumIdxAux, qadd_eq, h1, h2, h3]
        rw [hk]
        refine ⟨s3, s0, s1, s2, by simp [rotateL], by simp, ?_⟩
        intro p hp
        simp only [List.mem_cons, List.not_mem_nil, or_false] at hp
        rcases hp with rfl | rfl | rfl | rfl <;> linarith
      · have hk : minSumIdx [s0, s1, s2, s3] = 2 := by
          simp [minSumIdx, minSumIdxAux, qadd_eq, h1, h2, h3]
        rw [hk]
        refine ⟨s2, s3, s0, s1, by simp [rotateL], by simp, ?_⟩
        intro p hp
        simp only [List.mem_cons, List.not_mem_nil, or_false] at hp
        rcases hp with rfl | rfl | rfl | rfl <;> linarith
    · by_cases h4 : s3.x + s3.y < s1.x + s1.y
      · have hk : minSumIdx [s0, s1, s2, s3] = 3 := by
          simp [minSumIdx, minSumIdxAux, qadd_eq, h1, h2, h4]
        rw [hk]
        refine ⟨s3, s0, s1, s2, by simp [rotateL], by simp, ?_⟩
        intro p hp
        simp only [List.mem_cons, List.not_mem_nil, or_false] at hp
        rcases hp with rfl | rfl | rfl | rfl <;> linarith
      · have hk : minSumIdx [s0, s1, s2, s3] = 1 := by
          simp [minSumIdx, minSumIdxAux, qadd_eq, h1, h2, h4]
        rw [hk]
        refine ⟨s1, s2, s3, s0, by simp [rotateL], by simp, ?_⟩
        intro p hp
        simp only [List.mem_cons, List.not_mem_nil, or_false] at hp
        rcases hp with rfl | rfl | rfl | rfl <;> linarith
  · by_cases h5 : s2.x + s2.y < s0.x + s0.y
    · by_cases h6 : s3.x + s3.y < s2.x + s2.y
      · have hk : minSumIdx [s0, s1, s2, s3] = 3 := by
          simp [minSumIdx, minSumIdxAux, qadd_eq, h1, h5, h6]
        rw [hk]
        refine ⟨s3, s0, s1, s2, by simp [rotateL], by simp, ?_⟩
        intro p hp
        simp only [List.mem_cons, List.not_mem_nil, or_false] at hp
        rcases hp with rfl | rfl | rfl | rfl <;> linarith
      · have hk : minSumIdx [s0, s1, s2, s3] = 2 := by
          simp [minSumIdx, minSumIdxAux, qadd_eq, h1, h5, h6]
        rw [hk]
        refine ⟨s2, s3, s0, s1, by simp [rotateL], by simp, ?_⟩
        intro p hp
        simp only [List.mem_cons, List.not_mem_nil, or_false] at hp
        rcases hp with rfl | rfl | rfl | rfl <;> linarith
    · by_cases h7 : s3.x + s3.y < s0.x + s0.y
      · have hk : minSumIdx [s0, s1, s2, s3] = 3 := by
          simp [minSumIdx, minSumIdxAux, qadd_eq, h1, h5, h7]
        rw [hk]
        refine ⟨s3, s0, s1, s2, by simp [rotateL], by simp, ?_⟩
        intro p hp
        simp only [List.mem_cons, List.not_mem_nil, or_false] at hp
        rcases hp with rfl | rfl | rfl | rfl <;> linarith
      · have hk : minSumIdx [s0, s1, s2, s3] = 0 := by
          simp [minSumIdx, minSumIdxAux, qadd_eq, h1, h5, h7]
        rw [hk]
        refine ⟨s0, s1, s2, s3, by simp [rotateL], by simp, ?_⟩
        intro p hp
        simp only [List.mem_cons, List.not_mem_nil, or_false] at hp
        rcases hp with rfl | rfl | rfl | rfl <;> linarith

/-! ### Algebraic core: orientation signs of an angularly sorted vector cycle -/

/-- Orientation of the triangle spanned by three centred vectors. -/
def triO (u v w : Pt) : ℚ := crossV u v + crossV v w + crossV w u

theorem orient_eq_triO (c p q r : Pt) :
    orient p q r = triO (psub p c) (psub q c) (psub r c) := by
  rw [orient, triO, crossV, crossV, crossV, crossV]
  simp only [psub]
  ring

/-- Grassmann–Plücker relation for four planar vectors. -/
theorem crossV_gp (u0 u1 u2 u3 : Pt) :
    crossV u0 u1 * crossV u2 u3 - crossV u0 u2 * crossV u1 u3 -
      crossV u3 u0 * crossV u1 u2 = 0 := by
  rw [crossV, crossV, crossV, crossV, crossV, crossV]
  ring

theorem coreL1 (a b g d e z : ℚ) (ha : 0 < a) (hb : 0 < b) (hg : 0 < g) (hd : 0 < d)
    (hGP : a * g - e * z - d * b = 0) (hP : a + b - e ≤ 0) :
    0 < a + z + d ∧ 0 < g + d + e ∧ 0 < g + b - z := by
  have he : a + b ≤ e := by linarith
  have he0 : 0 < e := by linarith
  refine ⟨?_, by linarith, ?_⟩
  · nlinarith [mul_le_mul_of_nonneg_left he (le_of_lt (add_pos ha hd)), he0, hGP]
  · nlinarith [mul_le_mul_of_nonneg_left he (le_of_lt (add_pos hg hb)), he0, hGP]

theorem coreL2 (a b g d e z : ℚ) (ha : 0 < a) (hb : 0 < b) (hg : 0 < g) (hd : 0 < d)
    (hGP : a * g - e * z - d * b = 0) (hQ : a + z + d ≤ 0) :
    0 < a + b - e ∧ 0 < g + d + e ∧ 0 < g + b - z := by
  have hz2 : a + d ≤ -z := by linarith
  have hz0 : z < 0 := by linarith
  refine ⟨?_, ?_, by linarith⟩
  · nlinarith [mul_le_mul_of_nonneg_left hz2 (le_of_lt (add_pos ha hb)), hz0, hGP]
  · nlinarith [mul_le_mul_of_nonneg_left hz2 (le_of_lt (add_pos hg hd)), hz0, hGP]

/-- In a strictly sorted cycle (all four consecutive cross products
positive), at least three of the four relevant triangle orientations are
positive; stated through the two disjunctions needed for simplicity. -/
theorem strictCore (a b g d e z : ℚ) (ha : 0 < a) (hb : 0 < b) (hg : 0 < g) (hd : 0 < d)
    (hGP : a * g - e * z - d * b = 0) :
    (0 < (a + b - e) * (a + z + d) ∨ 0 < (g + d + e) * (g + b - z)) ∧
    (0 < (g + b - z) * (a + b - e) ∨ 0 < (a + z + d) * (g + d + e)) := by
  by_cases hP : 0 < a + b - e
  · by_cases hQ : 0 < a + z + d
    · by_cases hR : 0 < g + d + e
      · by_cases hS : 0 < g + b - z
        · exact ⟨Or.inl (mul_pos hP hQ), Or.inl (mul_pos hS hP)⟩
        · -- S ≤ 0: shifted coreL2 recovers R, P, Q > 0
          have h4 := coreL2 g d a b (-e) (-z) hg hd ha hb (by linarith [hGP])
            (by linarith)
          exact ⟨Or.inl (mul_pos hP hQ), Or.inr (mul_pos hQ (by linarith [h4.1]))⟩
      · -- R ≤ 0: shifted coreL1 recovers S, P, Q > 0
        have h3 := coreL1 g d a b (-e) (-z) hg hd ha hb (by linarith [hGP])
          (by linarith)
        exact ⟨Or.inl (mul_pos hP hQ), Or.inl (mul_pos (by linarith [h3.1] : 0 < g + b - z) hP)⟩
    · -- Q ≤ 0: coreL2 gives P, R, S > 0
      have h2 := coreL2 a b g d e z ha hb hg hd hGP (by linarith)
      exact ⟨Or.inr (mul_pos h2.2.1 h2.2.2), Or.inl (mul_pos h2.2.2 hP)⟩
  · -- P ≤ 0: coreL1 gives Q, R, S > 0
    have h1 := coreL1 a b g d e z ha hb hg hd hGP (by linarith)
    exact ⟨Or.inr (mul_pos h1.2.1 h1.2.2), Or.inr (mul_pos h1.1 h1.2.1)⟩

/-- `v` lies on the same open ray from the origin as `u`. -/
def sray (u v : Pt) : Prop := ∃ l : ℚ, 0 < l ∧ v.x = l * u.x ∧ v.y = l * u.y

theorem sray_cross {u v : Pt} (h : sray u v) : crossV u v = 0 := by
  obtain ⟨l, _, hx, hy⟩ := h
  rw [crossV, hx, hy]
  ring

theorem sray_class {u v : Pt} (h : sray u v) : angClass v = angClass u := by
  obtain ⟨l, hl, hx, hy⟩ := h
  rcases lt_trichotomy u.y 0 with hy0 | hy0 | hy0
  · rw [class_of_yneg hy0, class_of_yneg (by rw [hy]; exact mul_neg_of_pos_of_neg hl hy0)]
  · have hvy : v.y = 0 := by rw [hy, hy0]; ring
    rcases le_or_lt 0 u.x with hx0 | hx0
    · have h1 : angClass u = 1 := by rw [angClass, if_neg (by simp [hy0]), if_pos ⟨hy0, hx0⟩]
      have h2 : angClass v = 1 := by
        rw [angClass, if_neg (by simp [hvy]), if_pos ⟨hvy, by rw [hx]; positivity⟩]
      rw [h1, h2]
    · have h1 : angClass u = 3 := by
        rw [angClass, if_neg (by simp [hy0]), if_neg (by rintro ⟨_, hc⟩; linarith),
          if_neg (by simp [hy0])]
      have h2 : angClass v = 3 := by
        have hvx : v.x < 0 := by rw [hx]; exact mul_neg_of_pos_of_neg hl hx0
        rw [angClass, if_neg (by simp [hvy]), if_neg (by rintro ⟨_, hc⟩; linarith),
          if_neg (by simp [hvy])]
      rw [h1, h2]
  · rw [class_of_ypos hy0, class_of_ypos (by rw [hy]; exact mul_pos hl hy0)]

theorem parallel_sray_y {a b : Pt} (hy : 0 < a.y * b.y) (hc : crossV a b = 0) :
    sray a b := by
  have hay : a.y ≠ 0 := by
    intro h
    rw [h] at hy
    simp at hy
  have hl : 0 < b.y / a.y := by
    rcases mul_pos_iff.mp hy with ⟨h1, h2⟩ | ⟨h1, h2⟩
    · exact div_pos h2 h1
    · exact div_pos_iff.mpr (Or.inr ⟨h2, h1⟩)
  refine ⟨b.y / a.y, hl, ?_, ?_⟩
  · rw [crossV] at hc
    field_simp
    linarith
  · field_simp

theorem parallel_sray_x {a b : Pt} (hya : a.y = 0) (hyb : b.y = 0)
    (hx : 0 < a.x * b.x) : sray a b := by
  have hax : a.x ≠ 0 := by
    intro h
    rw [h] at hx
    simp at hx
  have hl : 0 < b.x / a.x := by
    rcases mul_pos_iff.mp hx with ⟨h1, h2⟩ | ⟨h1, h2⟩
    · exact div_pos h2 h1
    · exact div_pos_iff.mpr (Or.inr ⟨h2, h1⟩)
  exact ⟨b.x / a.x, hl, by field_simp, by rw [hya, hyb]; ring⟩

theorem vA_class_le {u v : Pt} (h : vA u v) : angClass u ≤ angClass v := by
  rcases eq_or_ne (angClass u) (angClass v) with he | hn
  · exact he.le
  · have : angClass u < angClass v := by rwa [vA, if_pos hn] at h
    exact this.le

theorem vA_within {u v : Pt} (h : vA u v) (he : angClass u = angClass v)
    (h02 : angClass u = 0 ∨ angClass u = 2) : 0 ≤ crossV u v := by
  rwa [vA, if_neg (by simp [he]), if_pos h02] at h

theorem crossV_self (a : Pt) : crossV a a = 0 := by
  rw [crossV]
  ring

theorem crossV_zero_left {u : Pt} (h : u.x = 0 ∧ u.y = 0) (v : Pt) : crossV u v = 0 := by
  rw [crossV, h.1, h.2]
  ring

theorem crossV_zero_right {u : Pt} (h : u.x = 0 ∧ u.y = 0) (v : Pt) : crossV v u = 0 := by
  rw [crossV, h.1, h.2]
  ring

theorem crossZero_pair {a u v : Pt} (ha : ¬(a.x = 0 ∧ a.y = 0))
    (h1 : crossV u a = 0) (h2 : crossV v a = 0) : crossV u v = 0 := by
  have hx := crossV_jacobi_x u v a
  have hy := crossV_jacobi_y u v a
  rw [h1, h2] at hx hy
  rcases not_and_or.mp ha with hax | hay
  · have : crossV u v * a.x = 0 := by linarith
    rcases mul_eq_zero.mp this with h | h
    · exact h
    · exact absurd h hax
  · have : crossV u v * a.y = 0 := by linarith
    rcases mul_eq_zero.mp this with h | h
    · exact h
    · exact absurd h hay

theorem after_cross {a b w : Pt} (ha : a.y < 0) (hb : 0 < b.y)
    (hab : crossV a b ≤ 0) (hbw : 0 ≤ crossV b w) (hw : 0 < w.y) :
    0 ≤ crossV w a := by
  have hj := crossV_jacobi_y a b w
  have h1 : crossV a b * w.y ≤ 0 := mul_nonpos_iff.mpr (Or.inr ⟨hab, hw.le⟩)
  have h2 : crossV b w * a.y ≤ 0 := mul_nonpos_iff.mpr (Or.inl ⟨hbw, ha.le⟩)
  have h3 : crossV a w * b.y ≤ 0 := by linarith
  have h4 : crossV a w ≤ 0 := by
    by_contra hcon
    push_neg at hcon
    nlinarith
  rw [crossV_skew]
  linarith

theorem apex_cross {a t w : Pt} (ha : a.y < 0) (ht : 0 < t.y)
    (hat : 0 ≤ crossV a t) (hwt : 0 ≤ crossV w t) (hw : 0 < w.y) :
    0 ≤ crossV a w := by
  have hj := crossV_jacobi_y a w t
  have h1 : 0 ≤ crossV a t * w.y := mul_nonneg hat hw.le
  have h2 : crossV w t * a.y ≤ 0 := mul_nonpos_iff.mpr (Or.inl ⟨hwt, ha.le⟩)
  have h3 : 0 ≤ crossV a w * t.y := by linarith
  by_contra hcon
  push_neg at hcon
  nlinarith

theorem triO_cyc (u v w : Pt) : triO u v w = triO v w u := by
  rw [triO, triO]
  ring

theorem triO_swap (u v w : Pt) : triO u v w = -triO v u w := by
  rw [triO, triO, crossV, crossV, crossV, crossV, crossV, crossV]
  ring

theorem triO_zero_left {u : Pt} (h : u.x = 0 ∧ u.y = 0) (v w : Pt) :
    triO u v w = crossV v w := by
  rw [triO, crossV_zero_left h, crossV_zero_right h]
  ring

theorem triO_allY {u v w : Pt} (hu : u.y = 0) (hv : v.y = 0) (hw : w.y = 0) :
    triO u v w = 0 := by
  rw [triO, crossV, crossV, crossV, hu, hv, hw]
  ring

theorem angClass_le3 (u : Pt) : angClass u ≤ 3 := by
  rw [angClass]
  split_ifs <;> omega

/-- For a consecutive pair `(a, b)` of an angularly sorted list of centred
vectors summing to zero, either the two vectors point along the same ray or
their cross product is strictly positive.  The remaining two vectors are
each allowed to be zero, earlier than `a`, or later than `b`. -/
theorem gapCons {a b w1 w2 : Pt}
    (hna : ¬(a.x = 0 ∧ a.y = 0)) (hnb : ¬(b.x = 0 ∧ b.y = 0))
    (hab : vA a b)
    (hw1 : (w1.x = 0 ∧ w1.y = 0) ∨ (¬(w1.x = 0 ∧ w1.y = 0) ∧ (vA w1 a ∨ vA b w1)))
    (hw2 : (w2.x = 0 ∧ w2.y = 0) ∨ (¬(w2.x = 0 ∧ w2.y = 0) ∧ (vA w2 a ∨ vA b w2)))
    (hsx : a.x + b.x + w1.x + w2.x = 0) (hsy : a.y + b.y + w1.y + w2.y = 0)
    (hO : triO a b w1 ≠ 0) :
    sray a b ∨ 0 < crossV a b := by
  have hcle := vA_class_le hab
  have hca3 := angClass_le3 a
  have hcb3 := angClass_le3 b
  rcases (by omega : angClass a = 0 ∨ angClass a = 1 ∨ angClass a = 2 ∨ angClass a = 3)
    with ha0 | ha1 | ha2 | ha3
  · -- a in class 0
    rcases (by omega : angClass b = 0 ∨ angClass b = 1 ∨ angClass b = 2 ∨ angClass b = 3)
      with hb0 | hb1 | hb2 | hb3
    · -- (0,0): within-class comparison
      have hay := yneg_of_class0 ha0
      have hby := yneg_of_class0 hb0
      have hcr := vA_within hab (ha0.trans hb0.symm) (Or.inl ha0)
      rcases eq_or_lt_of_le hcr with hz | hz
      · exact Or.inl (parallel_sray_y (mul_pos_of_neg_of_neg hay hby) hz.symm)
      · exact Or.inr hz
    · -- (0,1): strict
      have hay := yneg_of_class0 ha0
      obtain ⟨hby, hbx⟩ := class1_facts hb1
      have hbx2 : 0 < b.x := by
        rcases eq_or_lt_of_le hbx with h | h
        · exact absurd ⟨h.symm, hby⟩ hnb
        · exact h
      refine Or.inr ?_
      rw [crossV, hby]
      nlinarith
    · -- (0,2): the separating-wedge argument
      by_cases hcr : 0 < crossV a b
      · exact Or.inr hcr
      push_neg at hcr
      exfalso
      have hay := yneg_of_class0 ha0
      have hby := ypos_of_class2 hb2
      have key : ∀ w : Pt,
          ((w.x = 0 ∧ w.y = 0) ∨ (¬(w.x = 0 ∧ w.y = 0) ∧ (vA w a ∨ vA b w))) →
          0 ≤ crossV w a := by
        intro w hw
        rcases hw with hz | ⟨hnz, hside⟩
        · rw [crossV_zero_left hz]
        · rcases hside with hwa | hbw
          · have hcw : angClass w = 0 := by
              have := vA_class_le hwa
              omega
            exact vA_within hwa (hcw.trans ha0.symm) (Or.inl hcw)
          · have hcw2 : 2 ≤ angClass w := by
              have := vA_class_le hbw
              omega
            have hcw3 := angClass_le3 w
            rcases (by omega : angClass w = 2 ∨ angClass w = 3) with h2 | h3
            · have hbw2 : 0 ≤ crossV b w := vA_within hbw (hb2.trans h2.symm) (Or.inr hb2)
              exact after_cross hay hby hcr hbw2 (ypos_of_class2 h2)
            · obtain ⟨hwy, hwx⟩ := class3_facts h3
              rw [crossV, hwy]
              nlinarith
      have hw1a := key w1 hw1
      have hw2a := key w2 hw2
      have hba : 0 ≤ crossV b a := by
        rw [crossV_skew]
        linarith
      have hsum : crossV a a + crossV b a + crossV w1 a + crossV w2 a = 0 := by
        rw [crossV, crossV, crossV, crossV]
        linear_combination a.y * hsx - a.x * hsy
      have hself := crossV_self a
      have hba0 : crossV b a = 0 := by linarith
      have hw1a0 : crossV w1 a = 0 := by linarith
      have hab0 : crossV a b = 0 := by
        rw [crossV_skew] at hba0
        linarith
      have hbw10 : crossV b w1 = 0 := crossZero_pair hna hba0 hw1a0
      have hw1a0b : crossV w1 a = 0 := hw1a0
      apply hO
      rw [triO, hab0, hbw10, hw1a0b]
      ring
    · -- (0,3): sum of y-components is negative
      exfalso
      have hay := yneg_of_class0 ha0
      obtain ⟨hby, _⟩ := class3_facts hb3
      have key : ∀ w : Pt,
          ((w.x = 0 ∧ w.y = 0) ∨ (¬(w.x = 0 ∧ w.y = 0) ∧ (vA w a ∨ vA b w))) →
          w.y ≤ 0 := by
        intro w hw
        rcases hw with hz | ⟨hnz, hside⟩
        · exact hz.2.le
        · rcases hside with hwa | hbw
          · have hcw : angClass w = 0 := by
              have := vA_class_le hwa
              omega
            exact (yneg_of_class0 hcw).le
          · have hcw : angClass w = 3 := by
              have := vA_class_le hbw
              have := angClass_le3 w
              omega
            exact (class3_facts hcw).1.le
      have h1 := key w1 hw1
      have h2 := key w2 hw2
      linarith
  · -- a in class 1
    rcases (by omega : angClass b = 1 ∨ angClass b = 2 ∨ angClass b = 3)
      with hb1 | hb2 | hb3
    · -- (1,1): same ray
      obtain ⟨hay, hax⟩ := class1_facts ha1
      obtain ⟨hby, hbx⟩ := class1_facts hb1
      have hax2 : 0 < a.x := by
        rcases eq_or_lt_of_le hax with h | h
        · exact absurd ⟨h.symm, hay⟩ hna
        · exact h
      have hbx2 : 0 < b.x := by
        rcases eq_or_lt_of_le hbx with h | h
        · exact absurd ⟨h.symm, hby⟩ hnb
        · exact h
      exact Or.inl (parallel_sray_x hay hby (mul_pos hax2 hbx2))
    · -- (1,2): strict
      obtain ⟨hay, hax⟩ := class1_facts ha1
      have hax2 : 0 < a.x := by
        rcases eq_or_lt_of_le hax with h | h
        · exact absurd ⟨h.symm, hay⟩ hna
        · exact h
      have hby := ypos_of_class2 hb2
      refine Or.inr ?_
      rw [crossV, hay]
      nlinarith
    · -- (1,3): everything collapses onto the x-axis
      exfalso
      obtain ⟨hay, _⟩ := class1_facts ha1
      obtain ⟨hby, _⟩ := class3_facts hb3
      have key : ∀ w : Pt,
          ((w.x = 0 ∧ w.y = 0) ∨ (¬(w.x = 0 ∧ w.y = 0) ∧ (vA w a ∨ vA b w))) →
          w.y ≤ 0 := by
        intro w hw
        rcases hw with hz | ⟨hnz, hside⟩
        · exact hz.2.le
        · rcases hside with hwa | hbw
          · have hcw : angClass w ≤ 1 := by
              have := vA_class_le hwa
              omega
            rcases (by omega : angClass w = 0 ∨ angClass w = 1) with h0 | h1
            · exact (yneg_of_class0 h0).le
            · exact (class1_facts h1).1.le
          · have hcw : angClass w = 3 := by
              have := vA_class_le hbw
              have := angClass_le3 w
              omega
            exact (class3_facts hcw).1.le
      have h1 := key w1 hw1
      have h2 := key w2 hw2
      have hw1y : w1.y = 0 := by linarith
      have hw2y : w2.y = 0 := by linarith
      exact hO (triO_allY hay hby hw1y)
  · -- a in class 2
    rcases (by omega : angClass b = 2 ∨ angClass b = 3) with hb2 | hb3
    · -- (2,2): within-class comparison
      have hay := ypos_of_class2 ha2
      have hby := ypos_of_class2 hb2
      have hcr := vA_within hab (ha2.trans hb2.symm) (Or.inr ha2)
      rcases eq_or_lt_of_le hcr with hz | hz
      · exact Or.inl (parallel_sray_y (mul_pos hay hby) hz.symm)
      · exact Or.inr hz
    · -- (2,3): strict
      have hay := ypos_of_class2 ha2
      obtain ⟨hby, hbx⟩ := class3_facts hb3
      refine Or.inr ?_
      rw [crossV, hby]
      nlinarith
  · -- (3,3): same ray
    have hb3 : angClass b = 3 := by omega
    obtain ⟨hay, hax⟩ := class3_facts ha3
    obtain ⟨hby, hbx⟩ := class3_facts hb3
    exact Or.inl (parallel_sray_x hay hby (mul_pos_of_neg_of_neg hax hbx))

/-- Wrap-around analogue of `gapCons`: for the last element `t` and the
first element `a` of an angularly sorted list of centred vectors summing to
zero, either `t` and `a` point along the same ray or `crossV t a` is
strictly positive. -/
theorem gapWrap {t a w1 w2 : Pt}
    (hna : ¬(a.x = 0 ∧ a.y = 0)) (_hnt : ¬(t.x = 0 ∧ t.y = 0))
    (hat : vA a t)
    (hw1 : (w1.x = 0 ∧ w1.y = 0) ∨ (¬(w1.x = 0 ∧ w1.y = 0) ∧ vA a w1 ∧ vA w1 t))
    (hw2 : (w2.x = 0 ∧ w2.y = 0) ∨ (¬(w2.x = 0 ∧ w2.y = 0) ∧ vA a w2 ∧ vA w2 t))
    (hsx : a.x + t.x + w1.x + w2.x = 0) (hsy : a.y + t.y + w1.y + w2.y = 0)
    (hO : triO a w1 t ≠ 0) :
    sray t a ∨ 0 < crossV t a := by
  have hcle := vA_class_le hat
  have hca3 := angClass_le3 a
  have hct3 := angClass_le3 t
  have hymid : ∀ w : Pt,
      ((w.x = 0 ∧ w.y = 0) ∨ (¬(w.x = 0 ∧ w.y = 0) ∧ vA a w ∧ vA w t)) →
      angClass a ≤ angClass w ∧ angClass w ≤ angClass t ∨ (w.x = 0 ∧ w.y = 0) := by
    intro w hw
    rcases hw with hz | ⟨hnz, haw, hwt⟩
    · exact Or.inr hz
    · exact Or.inl ⟨vA_class_le haw, vA_class_le hwt⟩
  rcases (by omega : angClass a = 0 ∨ angClass a = 1 ∨ angClass a = 2 ∨ angClass a = 3)
    with ha0 | ha1 | ha2 | ha3
  · rcases (by omega : angClass t = 0 ∨ angClass t = 1 ∨ angClass t = 2 ∨ angClass t = 3)
      with ht0 | ht1 | ht2 | ht3
    · -- (0,0): all vectors in the open lower half-plane
      exfalso
      have hay := yneg_of_class0 ha0
      have hty := yneg_of_class0 ht0
      have key : ∀ w : Pt,
          ((w.x = 0 ∧ w.y = 0) ∨ (¬(w.x = 0 ∧ w.y = 0) ∧ vA a w ∧ vA w t)) →
          w.y ≤ 0 := by
        intro w hw
        rcases hymid w hw with ⟨hl, hr⟩ | hz
        · rw [ha0] at hl
          rw [ht0] at hr
          exact (yneg_of_class0 (by omega)).le
        · exact hz.2.le
      linarith [key w1 hw1, key w2 hw2]
    · -- (0,1): lower half-plane plus the x-axis
      exfalso
      have hay := yneg_of_class0 ha0
      have hty := (class1_facts ht1).1
      have key : ∀ w : Pt,
          ((w.x = 0 ∧ w.y = 0) ∨ (¬(w.x = 0 ∧ w.y = 0) ∧ vA a w ∧ vA w t)) →
          w.y ≤ 0 := by
        intro w hw
        rcases hymid w hw with ⟨hl, hr⟩ | hz
        · rw [ha0] at hl
          rw [ht1] at hr
          rcases (by omega : angClass w = 0 ∨ angClass w = 1) with h0 | h1
          · exact (yneg_of_class0 h0).le
          · exact (class1_facts h1).1.le
        · exact hz.2.le
      linarith [key w1 hw1, key w2 hw2]
    · -- (0,2): the apex-wedge argument
      by_cases hcr : 0 < crossV t a
      · exact Or.inr hcr
      push_neg at hcr
      exfalso
      have hay := yneg_of_class0 ha0
      have hty := ypos_of_class2 ht2
      have hat2 : 0 ≤ crossV a t := by
        rw [crossV_skew] at hcr
        linarith
      have key : ∀ w : Pt,
          ((w.x = 0 ∧ w.y = 0) ∨ (¬(w.x = 0 ∧ w.y = 0) ∧ vA a w ∧ vA w t)) →
          0 ≤ crossV a w := by
        intro w hw
        rcases hw with hz | ⟨hnz, haw, hwt⟩
        · rw [crossV_zero_right hz]
        · have hl := vA_class_le haw
          have hr := vA_class_le hwt
          rw [ha0] at hl
          rw [ht2] at hr
          rcases (by omega : angClass w = 0 ∨ angClass w = 1 ∨ angClass w = 2)
            with h0 | h1 | h2
          · exact vA_within haw (ha0.trans h0.symm) (Or.inl ha0)
          · obtain ⟨hwy, hwx⟩ := class1_facts h1
            have hwx2 : 0 < w.x := by
              rcases eq_or_lt_of_le hwx with h | h
              · exact absurd ⟨h.symm, hwy⟩ hnz
              · exact h
            rw [crossV, hwy]
            nlinarith
          · have hwt2 : 0 ≤ crossV w t := vA_within hwt (h2.trans ht2.symm) (Or.inr h2)
            exact apex_cross hay hty hat2 hwt2 (ypos_of_class2 h2)
      have hw1a := key w1 hw1
      have hw2a := key w2 hw2
      have hsum : crossV a a + crossV a t + crossV a w1 + crossV a w2 = 0 := by
        rw [crossV, crossV, crossV, crossV]
        linear_combination a.x * hsy - a.y * hsx
      have hself := crossV_self a
      have hat0 : crossV a t = 0 := by linarith
      have hw10 : crossV a w1 = 0 := by linarith
      have hta0 : crossV t a = 0 := by
       rw [crossV_skew, hat0]
       ring
      have hw1a0 : crossV w1 a = 0 := by
       rw [crossV_skew, hw10]
       ring
      have hw1t0 : crossV w1 t = 0 := crossZero_pair hna hw1a0 hta0
      apply hO
      rw [triO, hw10, hw1t0, hta0]
      ring
    · -- (0,3): direct strict cross
      obtain ⟨hty, htx⟩ := class3_facts ht3
      have hay := yneg_of_class0 ha0
      refine Or.inr ?_
      rw [crossV, hty]
      nlinarith
  · rcases (by omega : angClass t = 1 ∨ angClass t = 2 ∨ angClass t = 3)
      with ht1 | ht2 | ht3
    · -- (1,1): everything on the nonnegative x-axis
      exfalso
      have hay := (class1_facts ha1).1
      have hty := (class1_facts ht1).1
      have key : ∀ w : Pt,
          ((w.x = 0 ∧ w.y = 0) ∨ (¬(w.x = 0 ∧ w.y = 0) ∧ vA a w ∧ vA w t)) →
          w.y = 0 := by
        intro w hw
        rcases hymid w hw with ⟨hl, hr⟩ | hz
        · rw [ha1] at hl
          rw [ht1] at hr
          exact (class1_facts (by omega)).1
        · exact hz.2
      exact hO (triO_allY hay (key w1 hw1) hty)
    · -- (1,2): sum of y-components is positive
      exfalso
      have hay := (class1_facts ha1).1
      have hty := ypos_of_class2 ht2
      have key : ∀ w : Pt,
          ((w.x = 0 ∧ w.y = 0) ∨ (¬(w.x = 0 ∧ w.y = 0) ∧ vA a w ∧ vA w t)) →
          0 ≤ w.y := by
        intro w hw
        rcases hymid w hw with ⟨hl, hr⟩ | hz
        · rw [ha1] at hl
          rw [ht2] at hr
          rcases (by omega : angClass w = 1 ∨ angClass w = 2) with h1 | h2
          · exact (class1_facts h1).1.ge
          · exact (ypos_of_class2 h2).le
        · exact hz.2.ge
      linarith [key w1 hw1, key w2 hw2]
    · -- (1,3): middles cannot leave the x-axis
      exfalso
      have hay := (class1_facts ha1).1
      have hty := (class3_facts ht3).1
      have key : ∀ w : Pt,
          ((w.x = 0 ∧ w.y = 0) ∨ (¬(w.x = 0 ∧ w.y = 0) ∧ vA a w ∧ vA w t)) →
          0 ≤ w.y := by
        intro w hw
        rcases hymid w hw with ⟨hl, hr⟩ | hz
        · rw [ha1] at hl
          rw [ht3] at hr
          rcases (by omega : angClass w = 1 ∨ angClass w = 2 ∨ angClass w = 3)
            with h1 | h2 | h3
          · exact (class1_facts h1).1.ge
          · exact (ypos_of_class2 h2).le
          · exact (class3_facts h3).1.ge
        · exact hz.2.ge
      have h1 := key w1 hw1
      have h2 := key w2 hw2
      have hw1y : w1.y = 0 := by linarith
      exact hO (triO_allY hay hw1y hty)
  · rcases (by omega : angClass t = 2 ∨ angClass t = 3) with ht2 | ht3
    · -- (2,2): sum of y-components is positive
      exfalso
      have hay := ypos_of_class2 ha2
      have hty := ypos_of_class2 ht2
      have key : ∀ w : Pt,
          ((w.x = 0 ∧ w.y = 0) ∨ (¬(w.x = 0 ∧ w.y = 0) ∧ vA a w ∧ vA w t)) →
          0 ≤ w.y := by
        intro w hw
        rcases hymid w hw with ⟨hl, hr⟩ | hz
        · rw [ha2] at hl
          rw [ht2] at hr
          exact (ypos_of_class2 (by omega)).le
        · exact hz.2.ge
      linarith [key w1 hw1, key w2 hw2]
    · -- (2,3): sum of y-components is positive
      exfalso
      have hay := ypos_of_class2 ha2
      have hty := (class3_facts ht3).1
      have key : ∀ w : Pt,
          ((w.x = 0 ∧ w.y = 0) ∨ (¬(w.x = 0 ∧ w.y = 0) ∧ vA a w ∧ vA w t)) →
          0 ≤ w.y := by
        intro w hw
        rcases hymid w hw with ⟨hl, hr⟩ | hz
        · rw [ha2] at hl
          rw [ht3] at hr
          rcases (by omega : angClass w = 2 ∨ angClass w = 3) with h2 | h3
          · exact (ypos_of_class2 h2).le
          · exact (class3_facts h3).1.ge
        · exact hz.2.ge
      linarith [key w1 hw1, key w2 hw2]
  · -- (3,3): everything on the negative x-axis
    exfalso
    have ht3 : angClass t = 3 := by omega
    have hay := (class3_facts ha3).1
    have hty := (class3_facts ht3).1
    have key : ∀ w : Pt,
        ((w.x = 0 ∧ w.y = 0) ∨ (¬(w.x = 0 ∧ w.y = 0) ∧ vA a w ∧ vA w t)) →
        w.y = 0 := by
      intro w hw
      rcases hymid w hw with ⟨hl, hr⟩ | hz
      · rw [ha3] at hl
        rw [ht3] at hr
        exact (class3_facts (by omega)).1
      · exact hz.2
    exact hO (triO_allY hay (key w1 hw1) hty)

theorem triO_zero_mid {v : Pt} (h : v.x = 0 ∧ v.y = 0) (u w : Pt) :
    triO u v w = crossV w u := by
  rw [triO, crossV_zero_right h, crossV_zero_left h]
  ring

theorem triO_zero_right {w : Pt} (h : w.x = 0 ∧ w.y = 0) (u v : Pt) :
    triO u v w = crossV u v := by
  rw [triO, crossV_zero_right h, crossV_zero_left h]
  ring

/-- If two of three vectors summing to zero are on a common ray, the three
are collinear with the origin and the triangle they span is degenerate. -/
theorem sray_sum_triO {p q r : Pt} (h : sray p q)
    (hsx : p.x + q.x + r.x = 0) (hsy : p.y + q.y + r.y = 0) : triO p q r = 0 := by
  obtain ⟨l, hl, hqx, hqy⟩ := h
  have hrx : r.x = -(1 + l) * p.x := by
    rw [hqx] at hsx
    linarith
  have hry : r.y = -(1 + l) * p.y := by
    rw [hqy] at hsy
    linarith
  rw [triO, crossV, crossV, crossV, hqx, hqy, hrx, hry]
  ring

theorem triO_round1 (u v w : Pt) : triO v w u = triO u v w := by
  rw [triO, triO]
  ring

theorem triO_round2 (u v w : Pt) : triO w u v = triO u v w := by
  rw [triO, triO]
  ring

/-- Three nonzero angularly sorted vectors that, together with a fourth
zero vector, sum to zero and span a nondegenerate triangle are in strictly
counter-clockwise cyclic position. -/
theorem threeStrict {p q r z : Pt}
    (hnp : ¬(p.x = 0 ∧ p.y = 0)) (hnq : ¬(q.x = 0 ∧ q.y = 0))
    (hnr : ¬(r.x = 0 ∧ r.y = 0)) (hz : z.x = 0 ∧ z.y = 0)
    (hpq : vA p q) (hpr : vA p r) (hqr : vA q r)
    (hsx : p.x + q.x + r.x + z.x = 0) (hsy : p.y + q.y + r.y + z.y = 0)
    (hO : triO p q r ≠ 0) :
    0 < crossV p q ∧ 0 < crossV q r ∧ 0 < crossV r p := by
  have hsx3 : p.x + q.x + r.x = 0 := by
    rw [hz.1] at hsx
    linarith
  have hsy3 : p.y + q.y + r.y = 0 := by
    rw [hz.2] at hsy
    linarith
  refine ⟨?_, ?_, ?_⟩
  · rcases gapCons hnp hnq hpq (Or.inr ⟨hnr, Or.inr hqr⟩) (Or.inl hz) hsx hsy hO
      with ht | hs
    · exact absurd (sray_sum_triO ht hsx3 hsy3) hO
    · exact hs
  · have hO2 : triO q r p ≠ 0 := by
      rw [triO_round1]
      exact hO
    rcases gapCons hnq hnr hqr (Or.inr ⟨hnp, Or.inl hpq⟩) (Or.inl hz)
        (by linarith) (by linarith) hO2 with ht | hs
    · refine absurd (sray_sum_triO ht (by linarith) (by linarith)) hO2
    · exact hs
  · rcases gapWrap hnp hnr hpr (Or.inr ⟨hnq, hpq, hqr⟩) (Or.inl hz)
        (by linarith) (by linarith) hO with ht | hs
    · have hO4 : triO r p q ≠ 0 := by
        rw [triO_round2]
        exact hO
      exact absurd (sray_sum_triO ht (by linarith) (by linarith)) hO4
    · exact hs

/-- A same-ray tie between the last and the first element of the sorted
cycle forces all four vectors into a single angle class, contradicting
nondegeneracy. -/
theorem wrapTie_contra {u0 u1 u2 u3 : Pt}
    (hs : sray u3 u0) (h01 : vA u0 u1) (h02 : vA u0 u2)
    (h13 : vA u1 u3) (h23 : vA u2 u3)
    (hsy : u0.y + u1.y + u2.y + u3.y = 0)
    (hO : triO u0 u1 u2 ≠ 0) : False := by
  have hc03 : angClass u0 = angClass u3 := sray_class hs
  have hc1a := vA_class_le h01
  have hc1b := vA_class_le h13
  have hc2a := vA_class_le h02
  have hc2b := vA_class_le h23
  have hc1 : angClass u1 = angClass u0 := by omega
  have hc2 : angClass u2 = angClass u0 := by omega
  have hle3 := angClass_le3 u0
  rcases (by omega : angClass u0 = 0 ∨ angClass u0 = 1 ∨ angClass u0 = 2 ∨ angClass u0 = 3)
    with h | h | h | h
  · have hy0 := yneg_of_class0 h
    have hy1 := yneg_of_class0 (hc1.trans h)
    have hy2 := yneg_of_class0 (hc2.trans h)
    have hy3 := yneg_of_class0 (hc03.symm.trans h)
    linarith
  · exact hO (triO_allY (class1_facts h).1 (class1_facts (hc1.trans h)).1
      (class1_facts (hc2.trans h)).1)
  · have hy0 := ypos_of_class2 h
    have hy1 := ypos_of_class2 (hc1.trans h)
    have hy2 := ypos_of_class2 (hc2.trans h)
    have hy3 := ypos_of_class2 (hc03.symm.trans h)
    linarith
  · exact hO (triO_allY (class3_facts h).1 (class3_facts (hc1.trans h)).1
      (class3_facts (hc2.trans h)).1)

theorem cycleZero0 {u0 u1 u2 u3 : Pt} (hz : u0.x = 0 ∧ u0.y = 0)
    (hn1 : ¬(u1.x = 0 ∧ u1.y = 0)) (hn2 : ¬(u2.x = 0 ∧ u2.y = 0))
    (hn3 : ¬(u3.x = 0 ∧ u3.y = 0))
    (h12 : vA u1 u2) (h13 : vA u1 u3) (h23 : vA u2 u3)
    (hsx : u0.x + u1.x + u2.x + u3.x = 0) (hsy : u0.y + u1.y + u2.y + u3.y = 0)
    (hD : triO u1 u2 u3 ≠ 0) :
    (0 < triO u0 u1 u2 * triO u0 u1 u3 ∨ 0 < triO u0 u2 u3 * triO u1 u2 u3) ∧
    (0 < triO u1 u2 u3 * triO u0 u1 u2 ∨ 0 < triO u0 u1 u3 * triO u0 u2 u3) := by
  obtain ⟨s12, s23, s31⟩ := threeStrict hn1 hn2 hn3 hz h12 h13 h23
    (by linarith) (by linarith) hD
  have hA : triO u0 u1 u2 = crossV u1 u2 := triO_zero_left hz u1 u2
  have hC : triO u0 u2 u3 = crossV u2 u3 := triO_zero_left hz u2 u3
  have hDpos : 0 < triO u1 u2 u3 := by
    rw [triO]
    linarith
  constructor
  · refine Or.inr ?_
    rw [hC]
    exact mul_pos s23 hDpos
  · refine Or.inl ?_
    rw [hA]
    exact mul_pos hDpos s12

theorem cycleZero1 {u0 u1 u2 u3 : Pt} (hz : u1.x = 0 ∧ u1.y = 0)
    (hn0 : ¬(u0.x = 0 ∧ u0.y = 0)) (hn2 : ¬(u2.x = 0 ∧ u2.y = 0))
    (hn3 : ¬(u3.x = 0 ∧ u3.y = 0))
    (h02 : vA u0 u2) (h03 : vA u0 u3) (h23 : vA u2 u3)
    (hsx : u0.x + u1.x + u2.x + u3.x = 0) (hsy : u0.y + u1.y + u2.y + u3.y = 0)
    (hC : triO u0 u2 u3 ≠ 0) :
    (0 < triO u0 u1 u2 * triO u0 u1 u3 ∨ 0 < triO u0 u2 u3 * triO u1 u2 u3) ∧
    (0 < triO u1 u2 u3 * triO u0 u1 u2 ∨ 0 < triO u0 u1 u3 * triO u0 u2 u3) := by
  obtain ⟨s02, s23, s30⟩ := threeStrict hn0 hn2 hn3 hz h02 h03 h23
    (by linarith) (by linarith) hC
  have hB : triO u0 u1 u3 = crossV u3 u0 := triO_zero_mid hz u0 u3
  have hD : triO u1 u2 u3 = crossV u2 u3 := triO_zero_left hz u2 u3
  have hCpos : 0 < triO u0 u2 u3 := by
    rw [triO]
    linarith
  constructor
  · refine Or.inr ?_
    rw [hD]
    exact mul_pos hCpos s23
  · refine Or.inr ?_
    rw [hB]
    exact mul_pos s30 hCpos

theorem cycleZero2 {u0 u1 u2 u3 : Pt} (hz : u2.x = 0 ∧ u2.y = 0)
    (hn0 : ¬(u0.x = 0 ∧ u0.y = 0)) (hn1 : ¬(u1.x = 0 ∧ u1.y = 0))
    (hn3 : ¬(u3.x = 0 ∧ u3.y = 0))
    (h01 : vA u0 u1) (h03 : vA u0 u3) (h13 : vA u1 u3)
    (hsx : u0.x + u1.x + u2.x + u3.x = 0) (hsy : u0.y + u1.y + u2.y + u3.y = 0)
    (hB : triO u0 u1 u3 ≠ 0) :
    (0 < triO u0 u1 u2 * triO u0 u1 u3 ∨ 0 < triO u0 u2 u3 * triO u1 u2 u3) ∧
    (0 < triO u1 u2 u3 * triO u0 u1 u2 ∨ 0 < triO u0 u1 u3 * triO u0 u2 u3) := by
  obtain ⟨s01, s13, s30⟩ := threeStrict hn0 hn1 hn3 hz h01 h03 h13
    (by linarith) (by linarith) hB
  have hA : triO u0 u1 u2 = crossV u0 u1 := triO_zero_right hz u0 u1
  have hC : triO u0 u2 u3 = crossV u3 u0 := triO_zero_mid hz u0 u3
  have hBpos : 0 < triO u0 u1 u3 := by
    rw [triO]
    linarith
  constructor
  · refine Or.inl ?_
    rw [hA]
    exact mul_pos s01 hBpos
  · refine Or.inr ?_
    rw [hC]
    exact mul_pos hBpos s30

theorem cycleZero3 {u0 u1 u2 u3 : Pt} (hz : u3.x = 0 ∧ u3.y = 0)
    (hn0 : ¬(u0.x = 0 ∧ u0.y = 0)) (hn1 : ¬(u1.x = 0 ∧ u1.y = 0))
    (hn2 : ¬(u2.x = 0 ∧ u2.y = 0))
    (h01 : vA u0 u1) (h02 : vA u0 u2) (h12 : vA u1 u2)
    (hsx : u0.x + u1.x + u2.x + u3.x = 0) (hsy : u0.y + u1.y + u2.y + u3.y = 0)
    (hA : triO u0 u1 u2 ≠ 0) :
    (0 < triO u0 u1 u2 * triO u0 u1 u3 ∨ 0 < triO u0 u2 u3 * triO u1 u2 u3) ∧
    (0 < triO u1 u2 u3 * triO u0 u1 u2 ∨ 0 < triO u0 u1 u3 * triO u0 u2 u3) := by
  obtain ⟨s01, s12, s20⟩ := threeStrict hn0 hn1 hn2 hz h01 h02 h12
    (by linarith) (by linarith) hA
  have hApos : 0 < triO u0 u1 u2 := by
    rw [triO]
    linarith
  have hB : triO u0 u1 u3 = crossV u0 u1 := triO_zero_right hz u0 u1
  have hD : triO u1 u2 u3 = crossV u1 u2 := triO_zero_right hz u1 u2
  constructor
  · refine Or.inl ?_
    rw [hB]
    exact mul_pos hApos s01
  · refine Or.inl ?_
    rw [hD]
    exact mul_pos s12 hApos

/-- Orientation signs for a sorted cycle of four nonzero centred vectors
summing to zero and spanning no degenerate triangle. -/
theorem cycleNonzero {u0 u1 u2 u3 : Pt}
    (hn0 : ¬(u0.x = 0 ∧ u0.y = 0)) (hn1 : ¬(u1.x = 0 ∧ u1.y = 0))
    (hn2 : ¬(u2.x = 0 ∧ u2.y = 0)) (hn3 : ¬(u3.x = 0 ∧ u3.y = 0))
    (h01 : vA u0 u1) (h02 : vA u0 u2) (h03 : vA u0 u3)
    (h12 : vA u1 u2) (h13 : vA u1 u3) (h23 : vA u2 u3)
    (hsx : u0.x + u1.x + u2.x + u3.x = 0) (hsy : u0.y + u1.y + u2.y + u3.y = 0)
    (hOA : triO u0 u1 u2 ≠ 0) (hOB : triO u0 u1 u3 ≠ 0)
    (hOC : triO u0 u2 u3 ≠ 0) (hOD : triO u1 u2 u3 ≠ 0) :
    (0 < triO u0 u1 u2 * triO u0 u1 u3 ∨ 0 < triO u0 u2 u3 * triO u1 u2 u3) ∧
    (0 < triO u1 u2 u3 * triO u0 u1 u2 ∨ 0 < triO u0 u1 u3 * triO u0 u2 u3) := by
  have G3 := gapWrap hn0 hn3 h03 (Or.inr ⟨hn1, h01, h13⟩) (Or.inr ⟨hn2, h02, h23⟩)
    (by linarith) (by linarith) hOB
  rcases G3 with t3 | s30
  · exact (wrapTie_contra t3 h01 h02 h13 h23 hsy hOA).elim
  have G0 := gapCons hn0 hn1 h01 (Or.inr ⟨hn2, Or.inr h12⟩) (Or.inr ⟨hn3, Or.inr h13⟩)
    hsx hsy hOA
  have G1 := gapCons hn1 hn2 h12 (Or.inr ⟨hn0, Or.inl h01⟩) (Or.inr ⟨hn3, Or.inr h23⟩)
    (by linarith) (by linarith) (by rw [triO_round1]; exact hOA)
  have G2 := gapCons hn2 hn3 h23 (Or.inr ⟨hn0, Or.inl h02⟩) (Or.inr ⟨hn1, Or.inl h12⟩)
    (by linarith) (by linarith) (by rw [triO_round1]; exact hOC)
  rcases G0 with t0 | s01
  · -- tie on the first edge: u1 on the ray of u0
    obtain ⟨l, hl, h1x, h1y⟩ := t0
    have s12 : 0 < crossV u1 u2 := by
      rcases G1 with t1 | s
      · obtain ⟨m, hm, h2x, h2y⟩ := t1
        exact absurd (by simp only [triO, crossV]; rw [h2x, h2y, h1x, h1y]; ring) hOA
      · exact s
    have s23 : 0 < crossV u2 u3 := by
      rcases G2 with t2 | s
      · obtain ⟨m, hm, h3x, h3y⟩ := t2
        exfalso
        rw [h1x] at hsx
        rw [h1y] at hsy
        rw [h3x] at hsx
        rw [h3y] at hsy
        have hkx : (1 + m) * u2.x = -((1 + l) * u0.x) := by linarith
        have hky : (1 + m) * u2.y = -((1 + l) * u0.y) := by linarith
        have hc02 : crossV u0 u2 = 0 := by
          have key : (1 + m) * crossV u0 u2 = 0 := by
            rw [crossV]
            linear_combination u0.x * hky - u0.y * hkx
          rcases mul_eq_zero.mp key with h | h
          · linarith
          · exact h
        rw [crossV] at hc02
        apply hOA
        simp only [triO, crossV]
        rw [h1x, h1y]
        linear_combination (l - 1) * hc02
      · exact s
    have hc12 : crossV u1 u2 = l * crossV u0 u2 := by
      simp only [crossV]
      rw [h1x, h1y]
      ring
    have hc02 : 0 < crossV u0 u2 := by
      have h' : 0 < l * crossV u0 u2 := by
        rw [← hc12]
        exact s12
      nlinarith
    have hA : triO u0 u1 u2 = (l - 1) * crossV u0 u2 := by
      simp only [triO, crossV]
      rw [h1x, h1y]
      ring
    have hB : triO u0 u1 u3 = (1 - l) * crossV u3 u0 := by
      simp only [triO, crossV]
      rw [h1x, h1y]
      ring
    have hCpos : 0 < triO u0 u2 u3 := by
      rw [triO]
      linarith
    have hD : triO u1 u2 u3 = l * crossV u0 u2 + crossV u2 u3 + l * crossV u3 u0 := by
      simp only [triO, crossV]
      rw [h1x, h1y]
      ring
    have hDpos : 0 < triO u1 u2 u3 := by
      rw [hD]
      nlinarith [mul_pos hl hc02, mul_pos hl s30]
    have hlne : l ≠ 1 := by
      intro h
      apply hOA
      rw [hA, h]
      ring
    constructor
    · exact Or.inr (mul_pos hCpos hDpos)
    · rcases lt_or_gt_of_ne hlne with hlt | hgt
      · refine Or.inr ?_
        rw [hB]
        exact mul_pos (mul_pos (by linarith) s30) hCpos
      · refine Or.inl ?_
        rw [hA]
        exact mul_pos hDpos (mul_pos (by linarith) hc02)
  rcases G1 with t1 | s12
  · -- tie on the middle edge: u2 on the ray of u1
    obtain ⟨l, hl, h2x, h2y⟩ := t1
    have s23 : 0 < crossV u2 u3 := by
      rcases G2 with t2 | s
      · obtain ⟨m, hm, h3x, h3y⟩ := t2
        exact absurd (by simp only [triO, crossV]; rw [h3x, h3y, h2x, h2y]; ring) hOD
      · exact s
    have hc23 : crossV u2 u3 = l * crossV u1 u3 := by
      simp only [crossV]
      rw [h2x, h2y]
      ring
    have hc13 : 0 < crossV u1 u3 := by
      have h' : 0 < l * crossV u1 u3 := by
        rw [← hc23]
        exact s23
      nlinarith
    have hA : triO u0 u1 u2 = (1 - l) * crossV u0 u1 := by
      simp only [triO, crossV]
      rw [h2x, h2y]
      ring
    have hD : triO u1 u2 u3 = (l - 1) * crossV u1 u3 := by
      simp only [triO, crossV]
      rw [h2x, h2y]
      ring
    have hBpos : 0 < triO u0 u1 u3 := by
      rw [triO]
      linarith
    have hC : triO u0 u2 u3 = l * crossV u0 u1 + l * crossV u1 u3 + crossV u3 u0 := by
      simp only [triO, crossV]
      rw [h2x, h2y]
      ring
    have hCpos : 0 < triO u0 u2 u3 := by
      rw [hC]
      nlinarith [mul_pos hl s01, mul_pos hl hc13]
    have hlne : l ≠ 1 := by
      intro h
      apply hOD
      rw [hD, h]
      ring
    constructor
    · rcases lt_or_gt_of_ne hlne with hlt | hgt
      · refine Or.inl ?_
        rw [hA]
        exact mul_pos (mul_pos (by linarith) s01) hBpos
      · refine Or.inr ?_
        rw [hD]
        exact mul_pos hCpos (mul_pos (by linarith) hc13)
    · exact Or.inr (mul_pos hBpos hCpos)
  rcases G2 with t2 | s23
  · -- tie on the last edge: u3 on the ray of u2
    obtain ⟨l, hl, h3x, h3y⟩ := t2
    have hc30 : crossV u3 u0 = l * crossV u2 u0 := by
      simp only [crossV]
      rw [h3x, h3y]
      ring
    have hc20 : 0 < crossV u2 u0 := by
      have h' : 0 < l * crossV u2 u0 := by
        rw [← hc30]
        exact s30
      nlinarith
    have hApos : 0 < triO u0 u1 u2 := by
      rw [triO]
      linarith
    have hB : triO u0 u1 u3 = crossV u0 u1 + l * crossV u1 u2 + l * crossV u2 u0 := by
      simp only [triO, crossV]
      rw [h3x, h3y]
      ring
    have hBpos : 0 < triO u0 u1 u3 := by
      rw [hB]
      nlinarith [mul_pos hl s12, mul_pos hl hc20]
    have hC : triO u0 u2 u3 = (l - 1) * crossV u2 u0 := by
      simp only [triO, crossV]
      rw [h3x, h3y]
      ring
    have hD : triO u1 u2 u3 = (1 - l) * crossV u1 u2 := by
      simp only [triO, crossV]
      rw [h3x, h3y]
      ring
    have hlne : l ≠ 1 := by
      intro h
      apply hOC
      rw [hC, h]
      ring
    constructor
    · exact Or.inl (mul_pos hApos hBpos)
    · rcases lt_or_gt_of_ne hlne with hlt | hgt
      · refine Or.inl ?_
        rw [hD]
        exact mul_pos (mul_pos (by linarith) s12) hApos
      · refine Or.inr ?_
        rw [hC]
        exact mul_pos hBpos (mul_pos (by linarith) hc20)
  -- all four consecutive cross products strictly positive
  have hcore := strictCore (crossV u0 u1) (crossV u1 u2) (crossV u2 u3) (crossV u3 u0)
    (crossV u0 u2) (crossV u1 u3) s01 s12 s23 s30 (crossV_gp u0 u1 u2 u3)
  have eA : triO u0 u1 u2 = crossV u0 u1 + crossV u1 u2 - crossV u0 u2 := by
    simp only [triO, crossV]
    ring
  have eB : triO u0 u1 u3 = crossV u0 u1 + crossV u1 u3 + crossV u3 u0 := rfl
  have eC : triO u0 u2 u3 = crossV u2 u3 + crossV u3 u0 + crossV u0 u2 := by
    rw [triO]
    ring
  have eD : triO u1 u2 u3 = crossV u2 u3 + crossV u1 u2 - crossV u1 u3 := by
    simp only [triO, crossV]
    ring
  constructor
  · rcases hcore.1 with h | h
    · refine Or.inl ?_
      rw [eA, eB]
      exact h
    · refine Or.inr ?_
      rw [eC, eD]
      exact h
  · rcases hcore.2 with h | h
    · refine Or.inl ?_
      rw [eD, eA]
      exact h
    · refine Or.inr ?_
      rw [eB, eC]
      exact h

/-- Orientation signs for any angularly sorted cycle of four centred
vectors summing to zero whose four triangle orientations are nonzero. -/
theorem sortedCycle_signs {u0 u1 u2 u3 : Pt}
    (h01 : vA u0 u1) (h02 : vA u0 u2) (h03 : vA u0 u3)
    (h12 : vA u1 u2) (h13 : vA u1 u3) (h23 : vA u2 u3)
    (hsx : u0.x + u1.x + u2.x + u3.x = 0) (hsy : u0.y + u1.y + u2.y + u3.y = 0)
    (hOA : triO u0 u1 u2 ≠ 0) (hOB : triO u0 u1 u3 ≠ 0)
    (hOC : triO u0 u2 u3 ≠ 0) (hOD : triO u1 u2 u3 ≠ 0) :
    (0 < triO u0 u1 u2 * triO u0 u1 u3 ∨ 0 < triO u0 u2 u3 * triO u1 u2 u3) ∧
    (0 < triO u1 u2 u3 * triO u0 u1 u2 ∨ 0 < triO u0 u1 u3 * triO u0 u2 u3) := by
  by_cases hz0 : u0.x = 0 ∧ u0.y = 0
  · have hn1 : ¬(u1.x = 0 ∧ u1.y = 0) := by
      intro hz1
      exact hOA (by rw [triO_zero_left hz0, crossV_zero_left hz1])
    have hn2 : ¬(u2.x = 0 ∧ u2.y = 0) := by
      intro hz2
      exact hOA (by rw [triO_zero_left hz0, crossV_zero_right hz2])
    have hn3 : ¬(u3.x = 0 ∧ u3.y = 0) := by
      intro hz3
      exact hOB (by rw [triO_zero_left hz0, crossV_zero_right hz3])
    exact cycleZero0 hz0 hn1 hn2 hn3 h12 h13 h23 hsx hsy hOD
  · by_cases hz1 : u1.x = 0 ∧ u1.y = 0
    · have hn2 : ¬(u2.x = 0 ∧ u2.y = 0) := by
        intro hz2
        exact hOD (by rw [triO_zero_left hz1, crossV_zero_left hz2])
      have hn3 : ¬(u3.x = 0 ∧ u3.y = 0) := by
        intro hz3
        exact hOD (by rw [triO_zero_left hz1, crossV_zero_right hz3])
      exact cycleZero1 hz1 hz0 hn2 hn3 h02 h03 h23 hsx hsy hOC
    · by_cases hz2 : u2.x = 0 ∧ u2.y = 0
      · have hn3 : ¬(u3.x = 0 ∧ u3.y = 0) := by
          intro hz3
          exact hOC (by rw [triO_zero_mid hz2, crossV_zero_left hz3])
        exact cycleZero2 hz2 hz0 hz1 hn3 h01 h03 h13 hsx hsy hOB
      · by_cases hz3 : u3.x = 0 ∧ u3.y = 0
        · exact cycleZero3 hz3 hz0 hz1 hz2 h01 h02 h12 hsx hsy hOA
        · exact cycleNonzero hz0 hz1 hz2 hz3 h01 h02 h03 h12 h13 h23 hsx hsy
            hOA hOB hOC hOD

theorem orient_rot1 (a b c : Pt) : orient b c a = orient a b c := by
  rw [orient, orient, crossV, crossV]
  simp only [psub]
  ring

theorem orient_rot2 (a b c : Pt) : orient c a b = orient a b c := by
  rw [orient, orient, crossV, crossV]
  simp only [psub]
  ring

theorem orient_swap (a b c : Pt) : orient b a c = -orient a b c := by
  rw [orient, orient, crossV, crossV]
  simp only [psub]
  ring

theorem list_len4 (l : List Pt) (h : l.length = 4) :
    ∃ a b c d : Pt, l = [a, b, c, d] := by
  rcases l with _ | ⟨a, l⟩
  · simp at h
  rcases l with _ | ⟨b, l⟩
  · simp at h
  rcases l with _ | ⟨c, l⟩
  · simp at h
  rcases l with _ | ⟨d, l⟩
  · simp at h
  rcases l with _ | ⟨e, l⟩
  · exact ⟨a, b, c, d, rfl⟩
  · simp at h

/-- Simplicity of the quadrilateral with vertex cycle `q0 q1 q2 q3`:
opposite edges are disjoint and adjacent edges meet only in the shared
vertex. -/
def simpleQuad (q0 q1 q2 q3 : Pt) : Prop :=
  (∀ p, onSeg q0 q1 p → onSeg q2 q3 p → False) ∧
  (∀ p, onSeg q1 q2 p → onSeg q3 q0 p → False) ∧
  (∀ p, onSeg q0 q1 p → onSeg q1 q2 p → p = q1) ∧
  (∀ p, onSeg q1 q2 p → onSeg q2 q3 p → p = q2) ∧
  (∀ p, onSeg q2 q3 p → onSeg q3 q0 p → p = q3) ∧
  (∀ p, onSeg q3 q0 p → onSeg q0 q1 p → p = q0)

/-- Simplicity is invariant under rotating the vertex cycle. -/
theorem simpleQuad_rot {a b c d : Pt} (h : simpleQuad a b c d) : simpleQuad b c d a := by
  obtain ⟨h02, h13, ha1, ha2, ha3, ha0⟩ := h
  exact ⟨fun p h1 h2 => h13 p h1 h2, fun p h1 h2 => h02 p h2 h1,
    ha2, ha3, ha0, ha1⟩

/-- Simplicity is invariant under reversing the vertex cycle. -/
theorem simpleQuad_rev {a b c d : Pt} (h : simpleQuad a b c d) : simpleQuad a d c b := by
  obtain ⟨h02, h13, ha1, ha2, ha3, ha0⟩ := h
  refine ⟨?_, ?_, ?_, ?_, ?_, ?_⟩
  · intro p h1 h2
    exact h13 p (onSeg_symm h2) (onSeg_symm h1)
  · intro p h1 h2
    exact h02 p (onSeg_symm h2) (onSeg_symm h1)
  · intro p h1 h2
    exact ha3 p (onSeg_symm h2) (onSeg_symm h1)
  · intro p h1 h2
    exact ha2 p (onSeg_symm h2) (onSeg_symm h1)
  · intro p h1 h2
    exact ha1 p (onSeg_symm h2) (onSeg_symm h1)
  · intro p h1 h2
    exact ha0 p (onSeg_symm h2) (onSeg_symm h1)

/-- Sufficient sign conditions for simplicity: for each pair of opposite
edges, the line of one of them strictly separates; and no three cyclically
adjacent vertices are collinear. -/
theorem simpleQuad_of_signs {q0 q1 q2 q3 : Pt}
    (hA : 0 < orient q0 q1 q2 * orient q0 q1 q3 ∨ 0 < orient q2 q3 q0 * orient q2 q3 q1)
    (hB : 0 < orient q1 q2 q3 * orient q1 q2 q0 ∨ 0 < orient q3 q0 q1 * orient q3 q0 q2)
    (h012 : orient q0 q1 q2 ≠ 0) (h123 : orient q1 q2 q3 ≠ 0)
    (h230 : orient q2 q3 q0 ≠ 0) (h301 : orient q3 q0 q1 ≠ 0) :
    simpleQuad q0 q1 q2 q3 := by
  refine ⟨?_, ?_, ?_, ?_, ?_, ?_⟩
  · rcases hA with hA | hA
    · exact fun p h1 h2 => disjoint_of_sameSide hA p h1 h2
    · exact fun p h1 h2 => disjoint_of_sameSide hA p h2 h1
  · rcases hB with hB | hB
    · exact fun p h1 h2 => disjoint_of_sameSide hB p h1 h2
    · exact fun p h1 h2 => disjoint_of_sameSide hB p h2 h1
  · exact adjacent_only_at_shared h012
  · exact adjacent_only_at_shared h123
  · exact adjacent_only_at_shared h230
  · exact adjacent_only_at_shared h301

/-- An angularly sorted 4-point sequence around the points' own centroid,
with no three of the points collinear, traverses a simple polygon. -/
theorem sortedQuad_simple {cpt s0 s1 s2 s3 : Pt}
    (hsx : s0.x + s1.x + s2.x + s3.x = 4 * cpt.x)
    (hsy : s0.y + s1.y + s2.y + s3.y = 4 * cpt.y)
    (a01 : angleLe cpt s0 s1 = true) (a02 : angleLe cpt s0 s2 = true)
    (a03 : angleLe cpt s0 s3 = true) (a12 : angleLe cpt s1 s2 = true)
    (a13 : angleLe cpt s1 s3 = true) (a23 : angleLe cpt s2 s3 = true)
    (n012 : orient s0 s1 s2 ≠ 0) (n013 : orient s0 s1 s3 ≠ 0)
    (n023 : orient s0 s2 s3 ≠ 0) (n123 : orient s1 s2 s3 ≠ 0) :
    simpleQuad s0 s1 s2 s3 := by
  have e012 := orient_eq_triO cpt s0 s1 s2
  have e013 := orient_eq_triO cpt s0 s1 s3
  have e023 := orient_eq_triO cpt s0 s2 s3
  have e123 := orient_eq_triO cpt s1 s2 s3
  have hc := sortedCycle_signs
    ((angleLe_iff_vA cpt s0 s1).mp a01) ((angleLe_iff_vA cpt s0 s2).mp a02)
    ((angleLe_iff_vA cpt s0 s3).mp a03) ((angleLe_iff_vA cpt s1 s2).mp a12)
    ((angleLe_iff_vA cpt s1 s3).mp a13) ((angleLe_iff_vA cpt s2 s3).mp a23)
    (by simp only [psub]; linarith) (by simp only [psub]; linarith)
    (by rw [← e012]; exact n012) (by rw [← e013]; exact n013)
    (by rw [← e023]; exact n023) (by rw [← e123]; exact n123)
  rw [← e012, ← e013] at hc
  rw [← e023, ← e123] at hc
  refine simpleQuad_of_signs ?_ ?_ n012 n123 ?_ ?_
  · rcases hc.1 with h | h
    · exact Or.inl h
    · refine Or.inr ?_
      rw [orient_rot1 s0 s2 s3, orient_rot1 s1 s2 s3]
      exact h
  · rcases hc.2 with h | h
    · refine Or.inl ?_
      rw [orient_rot1 s0 s1 s2]
      exact h
    · refine Or.inr ?_
      have e1 : orient s3 s0 s1 = orient s0 s1 s3 := orient_rot2 s0 s1 s3
      have e2 : orient s3 s0 s2 = orient s0 s2 s3 := orient_rot2 s0 s2 s3
      rw [e1, e2]
      exact h
  · rw [orient_rot1 s0 s2 s3]
    exact n023
  · rw [orient_rot2 s0 s1 s3]
    exact n013

theorem orient_eq_zero_ab {a b : Pt} (h : a = b) (c : Pt) : orient a b c = 0 := by
  rw [h, orient, crossV]
  simp only [psub]
  ring

theorem orient_eq_zero_ac {a c : Pt} (h : a = c) (b : Pt) : orient a b c = 0 := by
  rw [h, orient, crossV]
  simp only [psub]
  ring

theorem orient_eq_zero_bc {b c : Pt} (h : b = c) (a : Pt) : orient a b c = 0 := by
  rw [h, orient, crossV]
  simp only [psub]
  ring

theorem orient_swap23 (a b c : Pt) : orient a c b = -orient a b c := by
  rw [orient, orient, crossV, crossV]
  simp only [psub]
  ring

theorem orient_rev (a b c : Pt) : orient c b a = -orient a b c := by
  rw [orient, orient, crossV, crossV]
  simp only [psub]
  ring

/-- Validity of a 4-point input to `orderCorners`: no three of the points
are collinear (in particular all four are pairwise distinct). -/
def validQuad (p0 p1 p2 p3 : Pt) : Prop :=
  orientC p0 p1 p2 ≠ 0 ∧ orientC p0 p1 p3 ≠ 0 ∧ orientC p0 p2 p3 ≠ 0 ∧
    orientC p1 p2 p3 ≠ 0

theorem validQuad_mem {p0 p1 p2 p3 : Pt}
    (n1 : orient p0 p1 p2 ≠ 0) (n2 : orient p0 p1 p3 ≠ 0)
    (n3 : orient p0 p2 p3 ≠ 0) (n4 : orient p1 p2 p3 ≠ 0) :
    ∀ a b c : Pt, a ∈ [p0, p1, p2, p3] → b ∈ [p0, p1, p2, p3] →
      c ∈ [p0, p1, p2, p3] → a ≠ b → a ≠ c → b ≠ c → orient a b c ≠ 0 := by
  have v021 : orient p0 p2 p1 ≠ 0 := by
    rw [orient_swap23]
    exact neg_ne_zero.mpr n1
  have v102 : orient p1 p0 p2 ≠ 0 := by
    rw [orient_swap]
    exact neg_ne_zero.mpr n1
  have v120 : orient p1 p2 p0 ≠ 0 := by
    rw [orient_rot1]
    exact n1
  have v201 : orient p2 p0 p1 ≠ 0 := by
    rw [orient_rot2]
    exact n1
  have v210 : orient p2 p1 p0 ≠ 0 := by
    rw [orient_rev]
    exact neg_ne_zero.mpr n1
  have v031 : orient p0 p3 p1 ≠ 0 := by
    rw [orient_swap23]
    exact neg_ne_zero.mpr n2
  have v103 : orient p1 p0 p3 ≠ 0 := by
    rw [orient_swap]
    exact neg_ne_zero.mpr n2
  have v130 : orient p1 p3 p0 ≠ 0 := by
    rw [orient_rot1]
    exact n2
  have v301 : orient p3 p0 p1 ≠ 0 := by
    rw [orient_rot2]
    exact n2
  have v310 : orient p3 p1 p0 ≠ 0 := by
    rw [orient_rev]
    exact neg_ne_zero.mpr n2
  have v032 : orient p0 p3 p2 ≠ 0 := by
    rw [orient_swap23]
    exact neg_ne_zero.mpr n3
  have v203 : orient p2 p0 p3 ≠ 0 := by
    rw [orient_swap]
    exact neg_ne_zero.mpr n3
  have v230 : orient p2 p3 p0 ≠ 0 := by
    rw [orient_rot1]
    exact n3
  have v302 : orient p3 p0 p2 ≠ 0 := by
    rw [orient_rot2]
    exact n3
  have v320 : orient p3 p2 p0 ≠ 0 := by
    rw [orient_rev]
    exact neg_ne_zero.mpr n3
  have v132 : orient p1 p3 p2 ≠ 0 := by
    rw [orient_swap23]
    exact neg_ne_zero.mpr n4
  have v213 : orient p2 p1 p3 ≠ 0 := by
    rw [orient_swap]
    exact neg_ne_zero.mpr n4
  have v231 : orient p2 p3 p1 ≠ 0 := by
    rw [orient_rot1]
    exact n4
  have v312 : orient p3 p1 p2 ≠ 0 := by
    rw [orient_rot2]
    exact n4
  have v321 : orient p3 p2 p1 ≠ 0 := by
    rw [orient_rev]
    exact neg_ne_zero.mpr n4
  intro a b c ha hb hc hab hac hbc
  simp only [List.mem_cons, List.not_mem_nil, or_false] at ha hb hc
  rcases ha with rfl | rfl | rfl | rfl <;>
    rcases hb with rfl | rfl | rfl | rfl <;>
    rcases hc with rfl | rfl | rfl | rfl <;>
    first
      | exact absurd rfl hab
      | exact absurd rfl hac
      | exact absurd rfl hbc
      | assumption

theorem orderCorners_unfold (c0 c1 c2 c3 : Pt) :
    orderCorners [c0, c1, c2, c3] =
      match rotateL
          (sortByAngle
            (angleLe
              ⟨qdiv (qadd (qadd (qadd (qadd 0 c0.x) c1.x) c2.x) c3.x) 4,
               qdiv (qadd (qadd (qadd (qadd 0 c0.y) c1.y) c2.y) c3.y) 4⟩)
            [c0, c1, c2, c3])
          (minSumIdx
            (sortByAngle
              (angleLe
                ⟨qdiv (qadd (qadd (qadd (qadd 0 c0.x) c1.x) c2.x) c3.x) 4,
                 qdiv (qadd (qadd (qadd (qadd 0 c0.y) c1.y) c2.y) c3.y) 4⟩)
              [c0, c1, c2, c3])) with
      | [a, b, c, d] => [a, d, c, b]
      | l => l := by
  unfold orderCorners
  rw [if_neg (by simp)]
  rfl

set_option maxHeartbeats 1000000 in
/-- C5: for every valid 4-point input (no three points collinear),
`orderCorners` outputs the point of minimal coordinate sum first, and the
output cycle traverses a simple (non-self-intersecting) quadrilateral. -/
theorem orderCorners_minSum_and_simple (p0 p1 p2 p3 : Pt)
    (hv : validQuad p0 p1 p2 p3) :
    ∃ q0 q1 q2 q3 : Pt,
      orderCorners [p0, p1, p2, p3] = [q0, q1, q2, q3] ∧
      (∀ p ∈ [p0, p1, p2, p3], q0.x + q0.y ≤ p.x + p.y) ∧
      simpleQuad q0 q1 q2 q3 := by
  obtain ⟨n1, n2, n3, n4⟩ := hv
  rw [orientC_eq] at n1 n2 n3 n4
  have d01 : p0 ≠ p1 := fun h => n1 (orient_eq_zero_ab h p2)
  have d02 : p0 ≠ p2 := fun h => n3 (orient_eq_zero_ab h p3)
  have d03 : p0 ≠ p3 := fun h => n2 (orient_eq_zero_ac h p1)
  have d12 : p1 ≠ p2 := fun h => n1 (orient_eq_zero_bc h p0)
  have d13 : p1 ≠ p3 := fun h => n2 (orient_eq_zero_bc h p0)
  have d23 : p2 ≠ p3 := fun h => n3 (orient_eq_zero_bc h p0)
  have vmem := validQuad_mem n1 n2 n3 n4
  rw [orderCorners_unfold]
  set C : Pt :=
    ⟨qdiv (qadd (qadd (qadd (qadd 0 p0.x) p1.x) p2.x) p3.x) 4,
     qdiv (qadd (qadd (qadd (qadd 0 p0.y) p1.y) p2.y) p3.y) 4⟩ with hC
  set S : List Pt := sortByAngle (angleLe C) [p0, p1, p2, p3] with hSdef
  have hperm : S.Perm [p0, p1, p2, p3] := by
    rw [hSdef]
    exact sortByAngle_perm _ _
  have hlen : S.length = 4 := by
    rw [hperm.length_eq]
    rfl
  obtain ⟨s0, s1, s2, s3, hS4⟩ := list_len4 S hlen
  rw [hS4] at hperm
  have hpw : List.Pairwise (fun p q => angleLe C p q = true) [s0, s1, s2, s3] := by
    rw [← hS4, hSdef]
    exact pairwise_sortByAngle _ (angleLe_total C)
      (fun p q r h1 h2 => angleLe_trans h1 h2) _
  rw [List.pairwise_cons] at hpw
  obtain ⟨hp0, hpw⟩ := hpw
  rw [List.pairwise_cons] at hpw
  obtain ⟨hp1, hpw⟩ := hpw
  rw [List.pairwise_cons] at hpw
  obtain ⟨hp2, _⟩ := hpw
  have a01 := hp0 s1 (by simp)
  have a02 := hp0 s2 (by simp)
  have a03 := hp0 s3 (by simp)
  have a12 := hp1 s2 (by simp)
  have a13 := hp1 s3 (by simp)
  have a23 := hp2 s3 (by simp)
  have m0 : s0 ∈ [p0, p1, p2, p3] := hperm.mem_iff.mp (by simp)
  have m1 : s1 ∈ [p0, p1, p2, p3] := hperm.mem_iff.mp (by simp)
  have m2 : s2 ∈ [p0, p1, p2, p3] := hperm.mem_iff.mp (by simp)
  have m3 : s3 ∈ [p0, p1, p2, p3] := hperm.mem_iff.mp (by simp)
  have hndp : ([p0, p1, p2, p3] : List Pt).Nodup := by
    simp [d01, d02, d03, d12, d13, d23]
  have hnds : ([s0, s1, s2, s3] : List Pt).Nodup := hperm.nodup_iff.mpr hndp
  simp only [List.nodup_cons, List.mem_cons, List.not_mem_nil, or_false, not_or,
    List.nodup_nil, and_true] at hnds
  obtain ⟨⟨e01, e02, e03⟩, ⟨e12, e13⟩, e23, -⟩ := hnds
  have ns012 := vmem s0 s1 s2 m0 m1 m2 e01 e02 e12
  have ns013 := vmem s0 s1 s3 m0 m1 m3 e01 e03 e13
  have ns023 := vmem s0 s2 s3 m0 m2 m3 e02 e03 e23
  have ns123 := vmem s1 s2 s3 m1 m2 m3 e12 e13 e23
  have hsumx : s0.x + s1.x + s2.x + s3.x = p0.x + p1.x + p2.x + p3.x := by
    have h := (hperm.map Pt.x).sum_eq
    simp only [List.map_cons, List.map_nil, List.sum_cons, List.sum_nil] at h
    linarith
  have hsumy : s0.y + s1.y + s2.y + s3.y = p0.y + p1.y + p2.y + p3.y := by
    have h := (hperm.map Pt.y).sum_eq
    simp only [List.map_cons, List.map_nil, List.sum_cons, List.sum_nil] at h
    linarith
  have hCx : C.x = (p0.x + p1.x + p2.x + p3.x) / 4 := by
    rw [hC]
    simp only [qadd_eq, qdiv_eq]
    ring
  have hCy : C.y = (p0.y + p1.y + p2.y + p3.y) / 4 := by
    rw [hC]
    simp only [qadd_eq, qdiv_eq]
    ring
  have hsq : simpleQuad s0 s1 s2 s3 := sortedQuad_simple
    (by rw [hsumx, hCx]; ring) (by rw [hsumy, hCy]; ring)
    a01 a02 a03 a12 a13 a23 ns012 ns013 ns023 ns123
  obtain ⟨t0, t1, t2, t3, hrot, hcases, hmin⟩ := minSum_rot_head s0 s1 s2 s3
  rw [hS4, hrot]
  refine ⟨t0, t3, t2, t1, rfl, ?_, ?_⟩
  · intro p hp
    exact hmin p (hperm.mem_iff.mpr hp)
  · have hq : simpleQuad t0 t1 t2 t3 := by
      rcases hcases with h | h | h | h
      · simp only [List.cons.injEq, and_true] at h
        obtain ⟨rfl, rfl, rfl, rfl⟩ := h
        exact hsq
      · simp only [List.cons.injEq, and_true] at h
        obtain ⟨rfl, rfl, rfl, rfl⟩ := h
        exact simpleQuad_rot hsq
      · simp only [List.cons.injEq, and_true] at h
        obtain ⟨rfl, rfl, rfl, rfl⟩ := h
        exact simpleQuad_rot (simpleQuad_rot hsq)
      · simp only [List.cons.injEq, and_true] at h
        obtain ⟨rfl, rfl, rfl, rfl⟩ := h
        exact simpleQuad_rot (simpleQuad_rot (simpleQuad_rot hsq))
    exact simpleQuad_rev hq

theorem orderCorners_minSum_and_simple_witness :
    validQuad ⟨0, 0⟩ ⟨2, 0⟩ ⟨2, 2⟩ ⟨0, 2⟩ ∧
    ∃ q0 q1 q2 q3 : Pt,
      orderCorners [⟨0, 0⟩, ⟨2, 0⟩, ⟨2, 2⟩, ⟨0, 2⟩] = [q0, q1, q2, q3] ∧
      (∀ p ∈ [(⟨0, 0⟩ : Pt), ⟨2, 0⟩, ⟨2, 2⟩, ⟨0, 2⟩], q0.x + q0.y ≤ p.x + p.y) ∧
      simpleQuad q0 q1 q2 q3 :=
  ⟨by unfold validQuad; decide,
   orderCorners_minSum_and_simple ⟨0, 0⟩ ⟨2, 0⟩ ⟨2, 2⟩ ⟨0, 2⟩ (by unfold validQuad; decide)⟩

end SmartScan
